import Mathlib

/-!
# TorrServer: automatic file selection and the `play` handler

A shallow embedding of `server/web/api/fileselection.go` and
`server/web/api/play.go`.

Conventions of the embedding.

* A Go `string` is a `List Char`: the sequence of its Unicode code points (the
  strings are taken to be valid UTF-8, so byte-wise search for the ASCII bytes
  `/` and `.` and byte-wise substring search agree with the same searches on
  code points).
* Go `int` and `int64` values that are only compared or passed on are `Int`.
* `unicode.ToLower`, the case table of the Go runtime, is a parameter `lower`
  of every definition that lowercases; the results hold for every table.
* `path/filepath` is the Unix flavour (separator `/`).
* The not-found value of the selectors is the integer `-1`, as in the source.
-/

namespace TorrServer

/-! ## Go library functions used by the source -/

/-- Go `len` of a string: the number of bytes of its UTF-8 encoding. -/
def len (s : List Char) : Nat := (s.map Char.utf8Size).sum

/-- Go `strings.ToLower`: every code point is mapped through `unicode.ToLower`,
here the parameter `lower`. -/
def strings.ToLower (lower : Char → Char) (s : List Char) : List Char := s.map lower

/-- Go `strings.Contains s substr`: `substr` occurs in `s` at some position. -/
def strings.Contains : List Char → List Char → Bool
  | [], substr => substr.isPrefixOf []
  | c :: cs, substr => substr.isPrefixOf (c :: cs) || strings.Contains cs substr

/-- The loop of Go `filepath.Ext`, run over the reversed path: walk back from
the end, stop with the empty extension at a separator, and return the suffix
that starts at the first dot met. -/
def filepath.extLoop : List Char → List Char → List Char
  | [], _ => []
  | c :: rest, acc =>
    if c = '/' then []
    else if c = '.' then '.' :: acc
    else filepath.extLoop rest (c :: acc)

/-- Go `filepath.Ext`: the suffix beginning at the final dot in the final
element of the path, empty if there is no dot. -/
def filepath.Ext (path : List Char) : List Char := filepath.extLoop path.reverse []

/-- Go `filepath.Base`: the last element of the path, after removing trailing
separators; `"."` for the empty path and `"/"` for a path of separators only. -/
def filepath.Base (path : List Char) : List Char :=
  if path = [] then ['.']
  else
    let stripped := path.reverse.dropWhile (fun c => c = '/')
    let last := (stripped.takeWhile (fun c => c ≠ '/')).reverse
    if last = [] then ['/'] else last

/-! ### The fragment of Go `regexp` the season/episode patterns live in

A pattern of the fragment is a sequence of single-character atoms (a literal,
a bracket class, `\.`, `\s`, or `.`), each optionally followed by `?` or `*`.
Every pattern that `selectBySeasonEpisode` builds from digit-only hints is in
the fragment.  `regexp.Compile` answers `none` for a pattern outside of it, so
statements that depend on what a pattern matches are made for digit-only hints.
-/

/-- One single-character atom of a pattern. -/
inductive regexp.Atom where
  | lit (c : Char)
  | cls (cs : List Char)
  | dot
  deriving DecidableEq, Repr

/-- The repetition attached to an atom: exactly once, `?`, or `*`. -/
inductive regexp.Quant where
  | one
  | opt
  | star
  deriving DecidableEq, Repr

/-- An atom with its repetition. -/
structure regexp.Item where
  atom : regexp.Atom
  quant : regexp.Quant
  deriving DecidableEq, Repr

/-- The characters matched by `\s`. -/
def regexp.whitespace : List Char := ['\t', '\n', '\x0c', '\r', ' ']

/-- Whether an atom matches a character; `.` matches everything but a newline
(the default flags of `regexp.Compile`). -/
def regexp.Atom.accepts : regexp.Atom → Char → Bool
  | .lit c, x => x = c
  | .cls cs, x => cs.contains x
  | .dot, x => x ≠ '\n'

/-- Characters with a syntactic role outside a bracket class. -/
def regexp.isMeta (c : Char) : Bool :=
  ['\\', '.', '+', '*', '?', '(', ')', '|', '[', ']', '\x7b', '\x7d', '^', '$'].contains c

/-- The members of a bracket class, read up to the closing bracket, together
with the rest of the pattern. -/
def regexp.parseClass : List Char → Option (List Char × List Char)
  | [] => none
  | c :: rest =>
    if c = ']' then some ([], rest)
    else if c = '\\' then
      match rest with
      | [] => none
      | e :: rest2 =>
        if e = 's' then (regexp.parseClass rest2).map (fun p => (regexp.whitespace ++ p.1, p.2))
        else if e = '.' then (regexp.parseClass rest2).map (fun p => ('.' :: p.1, p.2))
        else none
    else if c = '^' ∨ c = '-' ∨ c = '[' then none
    else (regexp.parseClass rest).map (fun p => (c :: p.1, p.2))

/-- One atom read from the front of a pattern, with the rest of the pattern. -/
def regexp.parseAtom : List Char → Option (regexp.Atom × List Char)
  | [] => none
  | c :: rest =>
    if c = '[' then
      match regexp.parseClass rest with
      | none => none
      | some (cs, r) => if cs = [] then none else some (.cls cs, r)
    else if c = '.' then some (.dot, rest)
    else if c = '\\' then
      match rest with
      | [] => none
      | e :: r =>
        if e = '.' then some (.lit '.', r)
        else if e = 's' then some (.cls regexp.whitespace, r)
        else none
    else if regexp.isMeta c then none
    else some (.lit c, rest)

/-- The repetition mark, if any, at the front of the rest of a pattern. -/
def regexp.parseQuant : List Char → regexp.Quant × List Char
  | [] => (.one, [])
  | c :: rest =>
    if c = '?' then (.opt, rest)
    else if c = '*' then (.star, rest)
    else (.one, c :: rest)

/-- The parser of `regexp.Compile`, with a bound on the number of atoms. -/
def regexp.compileAux : Nat → List Char → Option (List regexp.Item)
  | 0, _ => none
  | fuel + 1, s =>
    if s = [] then some []
    else
      match regexp.parseAtom s with
      | none => none
      | some (a, r) =>
        (regexp.compileAux fuel (regexp.parseQuant r).2).map
          (fun items => ⟨a, (regexp.parseQuant r).1⟩ :: items)

/-- Go `regexp.Compile` on the fragment: `none` stands for the error result. -/
def regexp.Compile (pattern : List Char) : Option (List regexp.Item) :=
  regexp.compileAux (pattern.length + 1) pattern

/-- Matching `p*` and then the continuation `k`. -/
def regexp.starLoop (p : Char → Bool) (k : List Char → Bool) : List Char → Bool
  | [] => k []
  | c :: cs => k (c :: cs) || (p c && regexp.starLoop p k cs)

/-- Whether some prefix of the text matches the compiled pattern. -/
def regexp.matchHere : List regexp.Item → List Char → Bool
  | [], _ => true
  | ⟨a, .one⟩ :: rest, s =>
    match s with
    | [] => false
    | c :: cs => a.accepts c && regexp.matchHere rest cs
  | ⟨a, .opt⟩ :: rest, s =>
    regexp.matchHere rest s ||
      (match s with
       | [] => false
       | c :: cs => a.accepts c && regexp.matchHere rest cs)
  | ⟨a, .star⟩ :: rest, s => regexp.starLoop a.accepts (regexp.matchHere rest) s

/-- Go `(*Regexp).MatchString`: the text contains a match of the pattern. -/
def regexp.MatchString (re : List regexp.Item) : List Char → Bool
  | [] => regexp.matchHere re []
  | c :: cs => regexp.matchHere re (c :: cs) || regexp.MatchString re cs

/-! ## `fileselection.go` -/

/-- Modelled from the spec: `state.TorrentFileStat` is declared outside the two
source files; a candidate file has an id, a torrent-relative path and a byte
length. -/
structure TorrentFileStat where
  Id : Int
  Path : List Char
  Length : Int
  deriving DecidableEq, Repr

/-- The extension table of `isVideoFile`. -/
def videoExts : List (List Char) :=
  [".mp4".toList, ".mkv".toList, ".avi".toList, ".mov".toList, ".wmv".toList,
   ".flv".toList, ".webm".toList, ".m4v".toList, ".mpg".toList, ".mpeg".toList,
   ".3gp".toList, ".ogv".toList, ".ts".toList, ".m2ts".toList]

/-- The function `isVideoFile`: the lowercased extension is in the table. -/
def isVideoFile (lower : Char → Char) (path : List Char) : Bool :=
  let ext := strings.ToLower lower (filepath.Ext path)
  videoExts.any (fun videoExt => ext = videoExt)

/-- The function `selectByFilename`: the first candidate whose lowercased base
name equals the lowercased hint, else the first video candidate whose lowercased
path contains it, else `-1`. -/
def selectByFilename (lower : Char → Char) (fileStats : List TorrentFileStat)
    (filename : List Char) : Int :=
  let filename := strings.ToLower lower filename
  match fileStats.find?
      (fun file => strings.ToLower lower (filepath.Base file.Path) = filename) with
  | some file => file.Id
  | none =>
    match fileStats.find?
        (fun file => strings.Contains (strings.ToLower lower file.Path) filename
          && isVideoFile lower file.Path) with
    | some file => file.Id
    | none => -1

/-- The zero padding of `selectBySeasonEpisode`: a hint of length one gets a
leading `0`. -/
def padNum (s : List Char) : List Char := if len s = 1 then '0' :: s else s

/-- The five patterns `selectBySeasonEpisode` builds, in the order of the
source. -/
def seasonEpisodePatterns (season episode : List Char) : List (List Char) :=
  let seasonNum := padNum season
  let episodeNum := padNum episode
  [ "[Ss]".toList ++ seasonNum ++ "[Ee]".toList ++ episodeNum,
    "[Ss]".toList ++ seasonNum ++ "\\.?[Ee]".toList ++ episodeNum,
    season ++ "x".toList ++ episodeNum,
    seasonNum ++ "x".toList ++ episodeNum,
    "[Ss]eason[.\\s]?".toList ++ season ++ ".*[Ee]pisode[.\\s]?".toList ++ episode ]

/-- Whether a pattern compiles and matches somewhere in the path. -/
def patternMatches (pattern path : List Char) : Bool :=
  match regexp.Compile pattern with
  | none => false
  | some re => regexp.MatchString re path

/-- The search loop of `selectBySeasonEpisode` over the remaining patterns:
a pattern that does not compile is skipped, the video candidates the pattern
matches are appended to `found`, and the loop stops once `found` is non-empty. -/
def searchPatterns (lower : Char → Char) (fileStats : List TorrentFileStat) :
    List (List Char) → List TorrentFileStat → List TorrentFileStat
  | [], found => found
  | pattern :: rest, found =>
    match regexp.Compile pattern with
    | none => searchPatterns lower fileStats rest found
    | some re =>
      let found := found ++ fileStats.filter
        (fun file => isVideoFile lower file.Path && regexp.MatchString re file.Path)
      if found.length > 0 then found else searchPatterns lower fileStats rest found

/-- The final loop of `selectBySeasonEpisode`: starting from the first match,
a later match replaces the current one only when it is strictly longer. -/
def largestOf (first : TorrentFileStat) (found : List TorrentFileStat) : TorrentFileStat :=
  found.foldl (fun largestFile file =>
    if file.Length > largestFile.Length then file else largestFile) first

/-- The function `selectBySeasonEpisode`. -/
def selectBySeasonEpisode (lower : Char → Char) (fileStats : List TorrentFileStat)
    (season episode : List Char) : Int :=
  match searchPatterns lower fileStats (seasonEpisodePatterns season episode) [] with
  | [] => -1
  | first :: more => (largestOf first (first :: more)).Id

/-- The function `selectLargestVideoFile`: one pass that keeps the first video
candidate and replaces it only by a strictly longer video candidate. -/
def selectLargestVideoFile (lower : Char → Char) (fileStats : List TorrentFileStat) : Int :=
  let largestFile := fileStats.foldl (fun (largestFile : Option TorrentFileStat) file =>
    if !isVideoFile lower file.Path then largestFile
    else
      match largestFile with
      | none => some file
      | some l => if file.Length > l.Length then some file else some l) none
  match largestFile with
  | none => -1
  | some l => l.Id

/-- The function `autoSelectFile`. -/
def autoSelectFile (lower : Char → Char) (fileStats : List TorrentFileStat)
    (filename season episode : List Char) : Int :=
  if fileStats.length = 0 then -1
  else if filename ≠ [] then selectByFilename lower fileStats filename
  else if season ≠ [] ∧ episode ≠ [] then selectBySeasonEpisode lower fileStats season episode
  else selectLargestVideoFile lower fileStats

/-! ## `play.go` -/

/-- Go `strconv.Atoi` for a 64-bit `int`: an optional sign, then one or more
ASCII digits, with the value inside the `int` range; `none` stands for the
error result. -/
def strconv.Atoi (s : List Char) : Option Int :=
  let signed : Bool × List Char :=
    match s with
    | [] => (false, [])
    | c :: rest => if c = '-' then (true, rest) else if c = '+' then (false, rest) else (false, s)
  let digits := signed.2
  if digits = [] then none
  else if digits.all Char.isDigit then
    let n : Nat := digits.foldl (fun n ch => n * 10 + (ch.toNat - 48)) 0
    let v : Int := if signed.1 then -(n : Int) else (n : Int)
    if -(2 : Int) ^ 63 ≤ v ∧ v < (2 : Int) ^ 63 then some v else none
  else none

/-- Modelled from the spec: `state.TorrentStat` is declared outside the two
source files; `TorrentInDB` is the state of a handle that is only a database
record, the other states are those of an active session. -/
inductive TorrentStat where
  | TorrentAdded
  | TorrentGettingInfo
  | TorrentPreload
  | TorrentWorking
  | TorrentClosed
  | TorrentInDB
  deriving DecidableEq, Repr

/-- Modelled from the spec: the result of `utils.ParseLink`, of which `play`
reads the hex string of the info hash and which it passes on to `AddTorrent`. -/
structure TorrentSpec where
  InfoHash : List Char
  deriving DecidableEq, Repr

/-- Modelled from the spec: the torrent handle of the external manager, as a
snapshot of what `play` reads from it: its state, the stored title, poster,
payload and category, the answer of `GotInfo()`, the file sequence of `Files()`
and the file statistics of `Status()`. -/
structure Torrent where
  Stat : TorrentStat
  Title : List Char
  Poster : List Char
  Data : List Char
  Category : List Char
  GotInfo : Bool
  Files : List TorrentFileStat
  FileStats : List TorrentFileStat
  deriving DecidableEq, Repr

/-- The external capabilities `play` consumes: `utils.ParseLink`,
`torr.GetTorrent` and `torr.AddTorrent`; an error carries its message. -/
structure Env where
  ParseLink : List Char → Except String TorrentSpec
  GetTorrent : List Char → Option Torrent
  AddTorrent : TorrentSpec → List Char → List Char → List Char → List Char →
    Except String Torrent

/-- What `play` reads from the request context: the path parameters `hash` and
`id`, the query parameters, the `auth_required` flag and the authenticated
user name. -/
structure Request where
  hash : List Char
  indexStr : List Char
  season : List Char
  episode : List Char
  filename : List Char
  authRequired : Bool
  authUser : List Char
  deriving DecidableEq, Repr

/-- What `play` does to the response and to the transport, in order. -/
inductive Effect where
  | Header (key value : String)
  | AbortWithError (code : Nat) (err : String)
  | AbortWithStatus (code : Nat)
  | Stream (index : Int)
  deriving DecidableEq, Repr

/-- The last two statements of `play`: the check of the unset index, then the
call of the transport. -/
def playIndex (index : Int) : List Effect :=
  if index = -1 then [.AbortWithError 400 "\"index\" is wrong"]
  else [.Stream index]

/-- The index resolution of `play` for a handle with metadata: `1` for a torrent
of one file, else the parsed token (`-1` if it does not parse); the value `-10`
runs `autoSelectFile` over the file statistics. -/
def playResolve (lower : Char → Char) (c : Request) (tor : Torrent) : List Effect :=
  let index : Int :=
    if tor.Files.length = 1 then 1
    else
      match strconv.Atoi c.indexStr with
      | some ind => ind
      | none => -1
  if index = -10 then
    let index := autoSelectFile lower tor.FileStats c.filename c.season c.episode
    if index = -1 then [.AbortWithError 404 "no suitable file found for auto-selection"]
    else playIndex index
  else playIndex index

/-- The handler `play`. -/
def play (lower : Char → Char) (env : Env) (c : Request) : List Effect :=
  let notAuth := c.authRequired && decide (c.authUser = [])
  if c.hash = [] ∨ c.indexStr = [] then [.AbortWithError 404 "link should not be empty"]
  else
    match env.ParseLink c.hash with
    | .error err => [.AbortWithError 500 err]
    | .ok spec =>
      match env.GetTorrent spec.InfoHash with
      | none =>
        if notAuth then
          [.Header "WWW-Authenticate" "Basic realm=Authorization Required",
           .AbortWithStatus 401]
        else [.AbortWithError 500 "error get torrent"]
      | some tor =>
        let added : Except String Torrent :=
          if tor.Stat = .TorrentInDB then
            env.AddTorrent spec tor.Title tor.Poster tor.Data tor.Category
          else .ok tor
        match added with
        | .error err => [.AbortWithError 500 err]
        | .ok tor =>
          if !tor.GotInfo then [.AbortWithError 500 "timeout connection torrent"]
          else playResolve lower c tor

/-! ## Notions used to state the properties -/

/-- A hint made of ASCII digits only. -/
def digitsOnly (s : List Char) : Bool := s.all Char.isDigit

/-- The exact-pass test of `selectByFilename`, as a proposition: the lowercased
final path segment of the candidate equals the lowercased hint. -/
def exactMatch (lower : Char → Char) (filename : List Char) (file : TorrentFileStat) : Prop :=
  strings.ToLower lower (filepath.Base file.Path) = strings.ToLower lower filename

/-- The substring-pass test of `selectByFilename`, as a proposition: the
lowercased hint is a contiguous part of the lowercased path and the candidate
is a video. -/
def partialMatch (lower : Char → Char) (filename : List Char) (file : TorrentFileStat) : Prop :=
  strings.ToLower lower filename <:+: strings.ToLower lower file.Path ∧
    isVideoFile lower file.Path = true

/-- A candidate is eligible for a pattern: it is a video and the pattern matches
somewhere in its path. -/
def eligible (lower : Char → Char) (pattern : List Char) (file : TorrentFileStat) : Bool :=
  isVideoFile lower file.Path && patternMatches pattern file.Path

/-- Among the candidates of the list that pass the test `elig`, `file` is the
longest and, of those of the same length, the earliest: the list splits around
it, every candidate before it that passes is strictly shorter, every candidate
after it that passes is not longer. -/
def IsFirstLargest (elig : TorrentFileStat → Bool) (l : List TorrentFileStat)
    (file : TorrentFileStat) : Prop :=
  ∃ pre post, l = pre ++ file :: post ∧ elig file = true ∧
    (∀ f ∈ pre, elig f = true → f.Length < file.Length) ∧
    (∀ f ∈ post, elig f = true → f.Length ≤ file.Length)

/-- One round of the keep-the-largest loops of the source, for the candidates
that pass `elig`. -/
def keepLargest (elig : TorrentFileStat → Bool) (largestFile : Option TorrentFileStat)
    (file : TorrentFileStat) : Option TorrentFileStat :=
  if !elig file then largestFile
  else
    match largestFile with
    | none => some file
    | some l => if file.Length > l.Length then some file else some l

/-- The items of a run of literal characters. -/
def literals (cs : List Char) : List regexp.Item := cs.map (fun c => ⟨.lit c, .one⟩)

/-- The text starts with a repetition mark. -/
def startsWithQuant : List Char → Bool
  | [] => false
  | c :: _ => c = '?' || c = '*'

/-- The compiled forms of the five patterns for digit-only hints. -/
def compiledPatterns (season episode : List Char) : List (List regexp.Item) :=
  let seasonNum := padNum season
  let episodeNum := padNum episode
  [ ⟨.cls ['S', 's'], .one⟩ :: (literals seasonNum ++
      ⟨.cls ['E', 'e'], .one⟩ :: literals episodeNum),
    ⟨.cls ['S', 's'], .one⟩ :: (literals seasonNum ++
      ⟨.lit '.', .opt⟩ :: ⟨.cls ['E', 'e'], .one⟩ :: literals episodeNum),
    literals season ++ ⟨.lit 'x', .one⟩ :: literals episodeNum,
    literals seasonNum ++ ⟨.lit 'x', .one⟩ :: literals episodeNum,
    ⟨.cls ['S', 's'], .one⟩ :: (literals "eason".toList ++
      ⟨.cls ('.' :: regexp.whitespace), .opt⟩ :: (literals season ++
      ⟨.dot, .star⟩ :: ⟨.cls ['E', 'e'], .one⟩ :: (literals "pisode".toList ++
      ⟨.cls ('.' :: regexp.whitespace), .opt⟩ :: literals episode))) ]

/-- The selection of `selectBySeasonEpisode` run over a given list of patterns:
the search loop, then the choice of the largest match.  With the five patterns
of the source it is `selectBySeasonEpisode` itself. -/
def selectByPatterns (lower : Char → Char) (fileStats : List TorrentFileStat)
    (patterns : List (List Char)) : Int :=
  match searchPatterns lower fileStats patterns [] with
  | [] => -1
  | first :: more => (largestOf first (first :: more)).Id

/-- The patterns 2, 3 and 5 of `selectBySeasonEpisode`, in that order. -/
def patterns235 (season episode : List Char) : List (List Char) :=
  let seasonNum := padNum season
  let episodeNum := padNum episode
  [ "[Ss]".toList ++ seasonNum ++ "\\.?[Ee]".toList ++ episodeNum,
    season ++ "x".toList ++ episodeNum,
    "[Ss]eason[.\\s]?".toList ++ season ++ ".*[Ee]pisode[.\\s]?".toList ++ episode ]

/-- The patterns 1, 2, 3 and 5 of `selectBySeasonEpisode`, in that order. -/
def patterns1235 (season episode : List Char) : List (List Char) :=
  let seasonNum := padNum season
  let episodeNum := padNum episode
  [ "[Ss]".toList ++ seasonNum ++ "[Ee]".toList ++ episodeNum,
    "[Ss]".toList ++ seasonNum ++ "\\.?[Ee]".toList ++ episodeNum,
    season ++ "x".toList ++ episodeNum,
    "[Ss]eason[.\\s]?".toList ++ season ++ ".*[Ee]pisode[.\\s]?".toList ++ episode ]

/-- The variant of `selectBySeasonEpisode` that tries only the patterns 2, 3 and
5, in that order. -/
def selectBySeasonEpisode235 (lower : Char → Char) (fileStats : List TorrentFileStat)
    (season episode : List Char) : Int :=
  selectByPatterns lower fileStats (patterns235 season episode)

/-- The variant of `selectBySeasonEpisode` that tries only the patterns 1, 2, 3
and 5, in that order. -/
def selectBySeasonEpisode1235 (lower : Char → Char) (fileStats : List TorrentFileStat)
    (season episode : List Char) : Int :=
  selectByPatterns lower fileStats (patterns1235 season episode)

/-- The optional separator of the fifth pattern, as text: nothing, a dot, or one
white-space character. -/
def IsOptSeparator (sep : List Char) : Prop :=
  sep = [] ∨ ∃ c ∈ '.' :: regexp.whitespace, sep = [c]

/-- The path contains the verbose form as the fifth pattern reads it: `Season`
or `season`, an optional separator, the season hint, any characters other than
a newline, `Episode` or `episode`, an optional separator, the episode hint. -/
def HasVerboseForm (season episode path : List Char) : Prop :=
  ∃ (before : List Char) (s0 : Char) (sep1 mid : List Char) (e0 : Char)
      (sep2 after : List Char),
    path = before ++ (s0 :: "eason".toList) ++ sep1 ++ season ++ mid ++
        (e0 :: "pisode".toList) ++ sep2 ++ episode ++ after ∧
      (s0 = 'S' ∨ s0 = 's') ∧ (e0 = 'E' ∨ e0 = 'e') ∧
      IsOptSeparator sep1 ∧ IsOptSeparator sep2 ∧ (∀ c ∈ mid, c ≠ '\n')

/-- A case table that neither creates nor removes the dot and the separator of
paths: a character is mapped to `.` or to `/` only if it is that character. -/
def KeepsPathMarks (lower : Char → Char) : Prop :=
  ∀ c, (lower c = '.' ↔ c = '.') ∧ (lower c = '/' ↔ c = '/')

/-- The handle on which `play` resolves the index: the request has a non-empty
hash and token, the link parses, the manager has a handle, a handle that is only
a database record is registered without error (`tor` is then the registered
handle, otherwise the handle found), and the metadata of `tor` is ready. -/
def ReachesIndexResolution (env : Env) (c : Request) (tor : Torrent) : Prop :=
  c.hash ≠ [] ∧ c.indexStr ≠ [] ∧
    ∃ spec found, env.ParseLink c.hash = .ok spec ∧
      env.GetTorrent spec.InfoHash = some found ∧
      ((found.Stat = .TorrentInDB ∧
          env.AddTorrent spec found.Title found.Poster found.Data found.Category = .ok tor) ∨
        (found.Stat ≠ .TorrentInDB ∧ tor = found)) ∧
      tor.GotInfo = true

/-- Modelled from the spec: the ids of the files of a handle are assigned by the
torrent manager, outside the two source files; the `id` of a request is a
positive integer, the position of the file in the handle's file list counted
from 1. -/
def NumberedFromOne (files : List TorrentFileStat) : Prop :=
  files.map TorrentFileStat.Id = (List.range files.length).map (fun i => (i : Int) + 1)

instance (files : List TorrentFileStat) : Decidable (NumberedFromOne files) := by
  unfold NumberedFromOne
  infer_instance

/-- The indices passed to the transport, in order. -/
def streamCalls (es : List Effect) : List Int :=
  es.filterMap (fun e => match e with
    | .Stream index => some index
    | _ => none)

/-- The status codes of the aborts, in order. -/
def abortCodes (es : List Effect) : List Nat :=
  es.filterMap (fun e => match e with
    | .AbortWithError code _ => some code
    | .AbortWithStatus code => some code
    | _ => none)

/-- The credential challenge of `play`. -/
def challenge : List Effect :=
  [.Header "WWW-Authenticate" "Basic realm=Authorization Required", .AbortWithStatus 401]

/-- A handle for the examples: an active or database-only handle whose file
sequence and file statistics are the given candidates. -/
def sampleTorrent (stat : TorrentStat) (gotInfo : Bool) (files : List TorrentFileStat) :
    Torrent :=
  ⟨stat, "title".toList, "poster".toList, "data".toList, "category".toList, gotInfo,
    files, files⟩

/-- Capabilities for the examples, with fixed answers. -/
def sampleEnv (link : Except String TorrentSpec) (found : Option Torrent)
    (added : Except String Torrent) : Env :=
  ⟨fun _ => link, fun _ => found, fun _ _ _ _ _ => added⟩

instance (lower : Char → Char) (filename : List Char) (file : TorrentFileStat) :
    Decidable (exactMatch lower filename file) := by
  unfold exactMatch
  infer_instance

instance (lower : Char → Char) (filename : List Char) (file : TorrentFileStat) :
    Decidable (partialMatch lower filename file) := by
  unfold partialMatch
  infer_instance

/-! ## Auxiliary lemmas -/

theorem strings.Contains_iff_infix (s substr : List Char) :
    strings.Contains s substr = true ↔ substr <:+: s := by
  induction s with
  | nil =>
    cases substr with
    | nil => simp [strings.Contains]
    | cons a t => simp [strings.Contains, List.isPrefixOf]
  | cons c cs ih =>
    rw [strings.Contains, Bool.or_eq_true, ih, List.infix_cons_iff, List.isPrefixOf_iff_prefix]

theorem keepLargest_foldl_spec (elig : TorrentFileStat → Bool) (l : List TorrentFileStat) :
    match l.foldl (keepLargest elig) none with
    | none => ∀ f ∈ l, elig f = false
    | some cur => IsFirstLargest elig l cur := by
  induction l using List.reverseRecOn with
  | nil => simp
  | append_singleton l x ih =>
    rw [List.foldl_append]
    cases hacc : l.foldl (keepLargest elig) none with
    | none =>
      rw [hacc] at ih
      simp only [List.foldl_cons, List.foldl_nil, keepLargest]
      cases hx : elig x with
      | false =>
        simp only [Bool.not_false, if_true]
        intro f hf
        rcases List.mem_append.mp hf with h | h
        · exact ih f h
        · rw [List.mem_singleton.mp h]; exact hx
      | true =>
        simp only [Bool.not_true, Bool.false_eq_true, if_false]
        refine ⟨l, [], rfl, hx, ?_, ?_⟩
        · intro f hf hef
          rw [ih f hf] at hef
          exact absurd hef (by decide)
        · intro f hf
          simp at hf
    | some cur =>
      rw [hacc] at ih
      obtain ⟨pre, post, hsplit, hcur, hpre, hpost⟩ := ih
      simp only [List.foldl_cons, List.foldl_nil, keepLargest]
      cases hx : elig x with
      | false =>
        simp only [Bool.not_false, if_true]
        refine ⟨pre, post ++ [x], by simp [hsplit], hcur, hpre, ?_⟩
        intro f hf hef
        rcases List.mem_append.mp hf with h | h
        · exact hpost f h hef
        · rw [List.mem_singleton.mp h, hx] at hef
          exact absurd hef (by decide)
      | true =>
        simp only [Bool.not_true, Bool.false_eq_true, if_false]
        by_cases hgt : x.Length > cur.Length
        · rw [if_pos hgt]
          refine ⟨l, [], rfl, hx, ?_, ?_⟩
          · intro f hf hef
            rw [hsplit] at hf
            rcases List.mem_append.mp hf with h | h
            · exact lt_trans (hpre f h hef) hgt
            · rcases List.mem_cons.mp h with h | h
              · rw [h]; exact hgt
              · exact lt_of_le_of_lt (hpost f h hef) hgt
          · intro f hf
            simp at hf
        · rw [if_neg hgt]
          refine ⟨pre, post ++ [x], by simp [hsplit], hcur, hpre, ?_⟩
          intro f hf hef
          rcases List.mem_append.mp hf with h | h
          · exact hpost f h hef
          · rw [List.mem_singleton.mp h]
            exact not_lt.mp hgt

theorem keepLargest_foldl_filter (elig : TorrentFileStat → Bool) (l : List TorrentFileStat)
    (acc : Option TorrentFileStat) :
    (l.filter elig).foldl (keepLargest (fun _ => true)) acc
      = l.foldl (keepLargest elig) acc := by
  induction l generalizing acc with
  | nil => rfl
  | cons x xs ih =>
    cases hx : elig x with
    | false =>
      rw [List.filter_cons_of_neg (by simp [hx]), List.foldl_cons, ih]
      simp [keepLargest, hx]
    | true =>
      rw [List.filter_cons_of_pos hx, List.foldl_cons, List.foldl_cons, ih]
      simp [keepLargest, hx]

theorem selectLargestVideoFile_eq (lower : Char → Char) (fileStats : List TorrentFileStat) :
    selectLargestVideoFile lower fileStats
      = match fileStats.foldl (keepLargest (fun f => isVideoFile lower f.Path)) none with
        | none => -1
        | some l => l.Id := rfl

theorem eligible_of_compile_none (lower : Char → Char) (pattern : List Char)
    (h : regexp.Compile pattern = none) (f : TorrentFileStat) :
    eligible lower pattern f = false := by
  simp [eligible, patternMatches, h]

theorem filter_eligible_of_compile (lower : Char → Char) (pattern : List Char)
    (re : List regexp.Item) (h : regexp.Compile pattern = some re)
    (fileStats : List TorrentFileStat) :
    fileStats.filter
        (fun file => isVideoFile lower file.Path && regexp.MatchString re file.Path)
      = fileStats.filter (eligible lower pattern) := by
  apply List.filter_congr
  intro f _
  simp [eligible, patternMatches, h]

theorem searchPatterns_cons (lower : Char → Char) (fileStats : List TorrentFileStat)
    (pattern : List Char) (rest : List (List Char)) :
    searchPatterns lower fileStats (pattern :: rest) []
      = if fileStats.filter (eligible lower pattern) = [] then
          searchPatterns lower fileStats rest []
        else fileStats.filter (eligible lower pattern) := by
  cases hc : regexp.Compile pattern with
  | none =>
    have hnil : fileStats.filter (eligible lower pattern) = [] := by
      rw [List.filter_eq_nil_iff]
      intro f _
      simp [eligible_of_compile_none lower pattern hc f]
    rw [if_pos hnil]
    simp only [searchPatterns, hc]
  | some re =>
    simp only [searchPatterns, hc, List.nil_append,
      filter_eligible_of_compile lower pattern re hc fileStats]
    by_cases hnil : fileStats.filter (eligible lower pattern) = []
    · rw [if_pos hnil, hnil]
      simp
    · rw [if_neg hnil, if_pos (List.length_pos.mpr hnil)]

theorem searchPatterns_winning (lower : Char → Char) (fileStats : List TorrentFileStat)
    (pre : List (List Char)) (p : List Char) (post : List (List Char))
    (hpre : ∀ q ∈ pre, ∀ f ∈ fileStats, eligible lower q f = false)
    (hp : ∃ f ∈ fileStats, eligible lower p f = true) :
    searchPatterns lower fileStats (pre ++ p :: post) []
      = fileStats.filter (eligible lower p) := by
  induction pre with
  | nil =>
    rw [List.nil_append, searchPatterns_cons]
    obtain ⟨f, hf, he⟩ := hp
    have hne : fileStats.filter (eligible lower p) ≠ [] := by
      intro hnil
      have hmem : f ∈ fileStats.filter (eligible lower p) := List.mem_filter.mpr ⟨hf, he⟩
      rw [hnil] at hmem
      simp at hmem
    rw [if_neg hne]
  | cons q qs ih =>
    rw [List.cons_append, searchPatterns_cons]
    have hnil : fileStats.filter (eligible lower q) = [] := by
      rw [List.filter_eq_nil_iff]
      intro f hf
      simp [hpre q (List.mem_cons_self q qs) f hf]
    rw [if_pos hnil]
    exact ih (fun r hr => hpre r (List.mem_cons_of_mem q hr))

theorem largestOf_eq_keepLargest (first : TorrentFileStat) (more : List TorrentFileStat) :
    (first :: more).foldl (keepLargest (fun _ => true)) none
      = some (largestOf first (first :: more)) := by
  have step : ∀ (l : List TorrentFileStat) (acc : TorrentFileStat),
      l.foldl (keepLargest (fun _ => true)) (some acc)
        = some (l.foldl (fun largestFile file =>
            if file.Length > largestFile.Length then file else largestFile) acc) := by
    intro l
    induction l with
    | nil => intro acc; rfl
    | cons x xs ih =>
      intro acc
      rw [List.foldl_cons, List.foldl_cons]
      by_cases hgt : x.Length > acc.Length
      · simp only [keepLargest, Bool.not_true, Bool.false_eq_true, if_false, if_pos hgt]
        exact ih x
      · simp only [keepLargest, Bool.not_true, Bool.false_eq_true, if_false, if_neg hgt]
        exact ih acc
  have hself : (if first.Length > first.Length then first else first) = first := by simp
  rw [List.foldl_cons]
  simp only [keepLargest, Bool.not_true, Bool.false_eq_true, if_false]
  rw [step more first, largestOf, List.foldl_cons, hself]

/-! ### The patterns of digit-only hints compile -/

theorem regexp.compileAux_mono (fuel : Nat) :
    ∀ (fuel2 : Nat) (s : List Char) (r : List regexp.Item), fuel ≤ fuel2 →
      regexp.compileAux fuel s = some r → regexp.compileAux fuel2 s = some r := by
  induction fuel with
  | zero =>
    intro fuel2 s r _ h
    simp [regexp.compileAux] at h
  | succ n ih =>
    intro fuel2 s r hle h
    obtain ⟨m, rfl⟩ : ∃ m, fuel2 = m + 1 := ⟨fuel2 - 1, by omega⟩
    unfold regexp.compileAux at h ⊢
    by_cases hs : s = []
    · rw [if_pos hs] at h ⊢
      exact h
    · rw [if_neg hs] at h ⊢
      cases ha : regexp.parseAtom s with
      | none => rw [ha] at h; simp at h
      | some ar =>
        obtain ⟨a, rest⟩ := ar
        rw [ha] at h
        simp only [Option.map_eq_some'] at h ⊢
        obtain ⟨items, hitems, hr⟩ := h
        exact ⟨items, ih m _ items (by omega) hitems, hr⟩

theorem regexp.Compile_step (s : List Char) (a : regexp.Atom) (afterAtom : List Char)
    (q : regexp.Quant) (rest : List Char) (r : List regexp.Item)
    (ha : regexp.parseAtom s = some (a, afterAtom))
    (hq : regexp.parseQuant afterAtom = (q, rest))
    (hlen : rest.length < s.length)
    (h : regexp.Compile rest = some r) :
    regexp.Compile s = some (⟨a, q⟩ :: r) := by
  have hs : s ≠ [] := by
    rintro rfl
    simp [regexp.parseAtom] at ha
  have hfuel := regexp.compileAux_mono (rest.length + 1) s.length rest r (by omega) h
  unfold regexp.Compile
  rw [regexp.compileAux, if_neg hs, ha]
  simp only [hq, hfuel, Option.map_some']

theorem regexp.parseQuant_of_not_quant (rest : List Char) (h : startsWithQuant rest = false) :
    regexp.parseQuant rest = (.one, rest) := by
  cases rest with
  | nil => rfl
  | cons c cs =>
    simp only [startsWithQuant, Bool.or_eq_false_iff, decide_eq_false_iff_not] at h
    simp [regexp.parseQuant, h.1, h.2]

theorem regexp.isMeta_false (c : Char) (h : regexp.isMeta c = false) :
    c ≠ '[' ∧ c ≠ '.' ∧ c ≠ '\\' ∧ c ≠ '?' ∧ c ≠ '*' := by
  refine ⟨?_, ?_, ?_, ?_, ?_⟩ <;> rintro rfl <;> exact absurd h (by decide)

theorem regexp.Compile_plain (c : Char) (rest : List Char) (r : List regexp.Item)
    (hc : regexp.isMeta c = false) (hq : startsWithQuant rest = false)
    (h : regexp.Compile rest = some r) :
    regexp.Compile (c :: rest) = some (⟨.lit c, .one⟩ :: r) := by
  obtain ⟨h1, h2, h3, _, _⟩ := regexp.isMeta_false c hc
  exact regexp.Compile_step (c :: rest) (.lit c) rest .one rest r
    (by simp [regexp.parseAtom, h1, h2, h3, hc])
    (regexp.parseQuant_of_not_quant rest hq) (by simp) h

theorem startsWithQuant_append (cs rest : List Char)
    (hcs : ∀ c ∈ cs, regexp.isMeta c = false) (hq : startsWithQuant rest = false) :
    startsWithQuant (cs ++ rest) = false := by
  cases cs with
  | nil => exact hq
  | cons c t =>
    obtain ⟨_, _, _, h4, h5⟩ := regexp.isMeta_false c (hcs c (List.mem_cons_self c t))
    simp [startsWithQuant, h4, h5]

theorem regexp.Compile_plains (cs rest : List Char) (r : List regexp.Item)
    (hcs : ∀ c ∈ cs, regexp.isMeta c = false) (hq : startsWithQuant rest = false)
    (h : regexp.Compile rest = some r) :
    regexp.Compile (cs ++ rest) = some (literals cs ++ r) := by
  induction cs with
  | nil => exact h
  | cons c t ih =>
    have ht : ∀ x ∈ t, regexp.isMeta x = false := fun x hx => hcs x (List.mem_cons_of_mem c hx)
    exact regexp.Compile_plain c (t ++ rest) (literals t ++ r)
      (hcs c (List.mem_cons_self c t)) (startsWithQuant_append t rest ht hq) (ih ht)

theorem regexp.parseClass_close (rest : List Char) :
    regexp.parseClass (']' :: rest) = some ([], rest) := by
  cases rest <;> simp [regexp.parseClass]

theorem regexp.parseClass_plain (c : Char) (rest : List Char)
    (h : c ≠ ']' ∧ c ≠ '\\' ∧ c ≠ '^' ∧ c ≠ '[') (hd : c ≠ '-') :
    regexp.parseClass (c :: rest)
      = (regexp.parseClass rest).map (fun p => (c :: p.1, p.2)) := by
  cases rest <;> simp [regexp.parseClass, h, hd]

theorem regexp.Compile_class2 (a b : Char) (rest : List Char) (r : List regexp.Item)
    (ha : regexp.isMeta a = false ∧ a ≠ '-') (hb : regexp.isMeta b = false ∧ b ≠ '-')
    (hq : startsWithQuant rest = false) (h : regexp.Compile rest = some r) :
    regexp.Compile ('[' :: a :: b :: ']' :: rest) = some (⟨.cls [a, b], .one⟩ :: r) := by
  have ha1 : a ≠ ']' ∧ a ≠ '\\' ∧ a ≠ '^' ∧ a ≠ '[' := by
    refine ⟨?_, ?_, ?_, ?_⟩ <;> rintro rfl <;> exact absurd ha.1 (by decide)
  have hb1 : b ≠ ']' ∧ b ≠ '\\' ∧ b ≠ '^' ∧ b ≠ '[' := by
    refine ⟨?_, ?_, ?_, ?_⟩ <;> rintro rfl <;> exact absurd hb.1 (by decide)
  exact regexp.Compile_step _ (.cls [a, b]) rest .one rest r
    (by simp [regexp.parseAtom, regexp.parseClass_plain a _ ha1 ha.2,
      regexp.parseClass_plain b _ hb1 hb.2, regexp.parseClass_close])
    (regexp.parseQuant_of_not_quant rest hq) (by simp only [List.length_cons]; omega) h

theorem regexp.Compile_optDot (rest : List Char) (r : List regexp.Item)
    (h : regexp.Compile rest = some r) :
    regexp.Compile ('\\' :: '.' :: '?' :: rest) = some (⟨.lit '.', .opt⟩ :: r) :=
  regexp.Compile_step _ (.lit '.') ('?' :: rest) .opt rest r
    (by simp [regexp.parseAtom]) (by simp [regexp.parseQuant]) (by simp only [List.length_cons]; omega) h

theorem regexp.Compile_optSep (rest : List Char) (r : List regexp.Item)
    (h : regexp.Compile rest = some r) :
    regexp.Compile ('[' :: '.' :: '\\' :: 's' :: ']' :: '?' :: rest)
      = some (⟨.cls ('.' :: regexp.whitespace), .opt⟩ :: r) :=
  regexp.Compile_step _ (.cls ('.' :: regexp.whitespace)) ('?' :: rest) .opt rest r
    (by simp [regexp.parseAtom, regexp.parseClass, regexp.parseClass_close, regexp.whitespace])
    (by simp [regexp.parseQuant]) (by simp only [List.length_cons]; omega) h

theorem regexp.Compile_dotStar (rest : List Char) (r : List regexp.Item)
    (h : regexp.Compile rest = some r) :
    regexp.Compile ('.' :: '*' :: rest) = some (⟨.dot, .star⟩ :: r) :=
  regexp.Compile_step _ .dot ('*' :: rest) .star rest r
    (by simp [regexp.parseAtom]) (by simp [regexp.parseQuant]) (by simp only [List.length_cons]; omega) h

theorem seasonEpisodePatterns_eq (season episode : List Char) :
    seasonEpisodePatterns season episode =
      [ '[' :: 'S' :: 's' :: ']' :: (padNum season ++
          '[' :: 'E' :: 'e' :: ']' :: padNum episode),
        '[' :: 'S' :: 's' :: ']' :: (padNum season ++
          '\\' :: '.' :: '?' :: '[' :: 'E' :: 'e' :: ']' :: padNum episode),
        season ++ 'x' :: padNum episode,
        padNum season ++ 'x' :: padNum episode,
        '[' :: 'S' :: 's' :: ']' :: ("eason".toList ++
          '[' :: '.' :: '\\' :: 's' :: ']' :: '?' :: (season ++
          '.' :: '*' :: '[' :: 'E' :: 'e' :: ']' :: ("pisode".toList ++
          '[' :: '.' :: '\\' :: 's' :: ']' :: '?' :: episode))) ] := by
  simp [seasonEpisodePatterns]

theorem regexp.isMeta_of_isDigit (c : Char) (h : c.isDigit = true) :
    regexp.isMeta c = false := by
  cases hm : regexp.isMeta c with
  | false => rfl
  | true =>
    simp only [regexp.isMeta, List.contains_eq_any_beq, List.any_cons, List.any_nil,
      Bool.or_false, Bool.or_eq_true, beq_iff_eq] at hm
    rcases hm with rfl | rfl | rfl | rfl | rfl | rfl | rfl | rfl | rfl | rfl | rfl | rfl |
      rfl | rfl <;> exact absurd h (by decide)

theorem digitsOnly_plain (s : List Char) (h : digitsOnly s = true) :
    ∀ c ∈ s, regexp.isMeta c = false := by
  intro c hc
  simp only [digitsOnly, List.all_eq_true] at h
  exact regexp.isMeta_of_isDigit c (h c hc)

theorem digitsOnly_padNum (s : List Char) (h : digitsOnly s = true) :
    digitsOnly (padNum s) = true := by
  unfold padNum
  split
  · simp only [digitsOnly, List.all_cons, Bool.and_eq_true]
    exact ⟨by decide, h⟩
  · exact h

theorem Compile_nil : regexp.Compile [] = some [] := rfl

theorem seasonEpisodePatterns_compile (season episode : List Char)
    (hs : digitsOnly season = true) (he : digitsOnly episode = true) :
    (seasonEpisodePatterns season episode).map regexp.Compile
      = (compiledPatterns season episode).map some := by
  have hsp := digitsOnly_plain season hs
  have hep := digitsOnly_plain episode he
  have hsn := digitsOnly_plain (padNum season) (digitsOnly_padNum season hs)
  have hen := digitsOnly_plain (padNum episode) (digitsOnly_padNum episode he)
  have hword : ∀ w : List Char, (∀ c ∈ w, regexp.isMeta c = false) →
      ∀ rest, startsWithQuant rest = false → startsWithQuant (w ++ rest) = false :=
    fun w hw rest hr => startsWithQuant_append w rest hw hr
  have hE : ∀ rest r, regexp.Compile rest = some r → startsWithQuant rest = false →
      regexp.Compile ('[' :: 'E' :: 'e' :: ']' :: rest) = some (⟨.cls ['E', 'e'], .one⟩ :: r) :=
    fun rest r h hq => regexp.Compile_class2 'E' 'e' rest r (by decide) (by decide) hq h
  have hS : ∀ rest r, regexp.Compile rest = some r → startsWithQuant rest = false →
      regexp.Compile ('[' :: 'S' :: 's' :: ']' :: rest) = some (⟨.cls ['S', 's'], .one⟩ :: r) :=
    fun rest r h hq => regexp.Compile_class2 'S' 's' rest r (by decide) (by decide) hq h
  have hq0 : startsWithQuant ([] : List Char) = false := rfl
  -- the tails shared by the patterns
  have hEn : regexp.Compile (padNum episode) = some (literals (padNum episode)) := by
    simpa using regexp.Compile_plains _ [] [] hen hq0 Compile_nil
  have hEnq : startsWithQuant (padNum episode) = false := by
    simpa using hword _ hen [] hq0
  have hEp : regexp.Compile episode = some (literals episode) := by
    simpa using regexp.Compile_plains _ [] [] hep hq0 Compile_nil
  have hx : regexp.Compile ('x' :: padNum episode)
      = some (⟨.lit 'x', .one⟩ :: literals (padNum episode)) :=
    regexp.Compile_plain 'x' _ _ (by decide) hEnq hEn
  have hxq : startsWithQuant ('x' :: padNum episode) = false := rfl
  have hEe := hE _ _ hEn hEnq
  have hEeq : startsWithQuant ('[' :: 'E' :: 'e' :: ']' :: padNum episode) = false := rfl
  have hdot := regexp.Compile_optDot _ _ hEe
  have hdotq : startsWithQuant
      ('\\' :: '.' :: '?' :: '[' :: 'E' :: 'e' :: ']' :: padNum episode) = false := rfl
  have p1 := hS _ _ (regexp.Compile_plains _ _ _ hsn hEeq hEe) (hword _ hsn _ hEeq)
  have p2 := hS _ _ (regexp.Compile_plains _ _ _ hsn hdotq hdot) (hword _ hsn _ hdotq)
  have p3 := regexp.Compile_plains _ _ _ hsp hxq hx
  have p4 := regexp.Compile_plains _ _ _ hsn hxq hx
  have hpisode : ∀ c ∈ "pisode".toList, regexp.isMeta c = false := by decide
  have heason : ∀ c ∈ "eason".toList, regexp.isMeta c = false := by decide
  have t1 := regexp.Compile_optSep _ _ hEp
  have t1q : startsWithQuant ('[' :: '.' :: '\\' :: 's' :: ']' :: '?' :: episode)
      = false := rfl
  have t2 := regexp.Compile_plains _ _ _ hpisode t1q t1
  have t3 := hE _ _ t2 (hword _ hpisode _ t1q)
  have t4 := regexp.Compile_dotStar _ _ t3
  have t4q : startsWithQuant ('.' :: '*' :: '[' :: 'E' :: 'e' :: ']' :: ("pisode".toList ++
      '[' :: '.' :: '\\' :: 's' :: ']' :: '?' :: episode)) = false := rfl
  have t5 := regexp.Compile_plains _ _ _ hsp t4q t4
  have t6 := regexp.Compile_optSep _ _ t5
  have t6q : startsWithQuant ('[' :: '.' :: '\\' :: 's' :: ']' :: '?' :: (season ++
      '.' :: '*' :: '[' :: 'E' :: 'e' :: ']' :: ("pisode".toList ++
      '[' :: '.' :: '\\' :: 's' :: ']' :: '?' :: episode))) = false := rfl
  have t7 := regexp.Compile_plains _ _ _ heason t6q t6
  have p5 := hS _ _ t7 (hword _ heason _ t6q)
  rw [seasonEpisodePatterns_eq]
  simp only [List.map_cons, List.map_nil, p1, p2, p3, p4, p5, compiledPatterns]

theorem largestOf_mem (first : TorrentFileStat) (l : List TorrentFileStat) :
    largestOf first l = first ∨ largestOf first l ∈ l := by
  unfold largestOf
  induction l generalizing first with
  | nil => exact Or.inl rfl
  | cons x xs ih =>
    rw [List.foldl_cons]
    by_cases hgt : x.Length > first.Length
    · rw [if_pos hgt]
      rcases ih x with h | h
      · rw [h]; exact Or.inr (List.mem_cons_self x xs)
      · exact Or.inr (List.mem_cons_of_mem x h)
    · rw [if_neg hgt]
      rcases ih first with h | h
      · exact Or.inl h
      · exact Or.inr (List.mem_cons_of_mem x h)

/-! ## Properties of `autoSelectFile` and `selectByFilename` -/

/-- C1: for a non-empty candidate list `autoSelectFile` is a strict priority
chain: a non-empty filename hint gives the result of `selectByFilename` whatever
the season and episode hints are; an empty filename with both season and episode
non-empty gives the result of `selectBySeasonEpisode`; otherwise the result is
that of `selectLargestVideoFile`. -/
theorem autoSelectFile_priority_chain (lower : Char → Char)
    (fileStats : List TorrentFileStat) (filename season episode : List Char)
    (hne : fileStats ≠ []) :
    (filename ≠ [] →
      autoSelectFile lower fileStats filename season episode
        = selectByFilename lower fileStats filename) ∧
    (filename = [] → season ≠ [] → episode ≠ [] →
      autoSelectFile lower fileStats filename season episode
        = selectBySeasonEpisode lower fileStats season episode) ∧
    (filename = [] → (season = [] ∨ episode = []) →
      autoSelectFile lower fileStats filename season episode
        = selectLargestVideoFile lower fileStats) := by
  have hlen : fileStats.length ≠ 0 := by
    intro h
    exact hne (List.length_eq_zero.mp h)
  refine ⟨?_, ?_, ?_⟩
  · intro hf
    simp [autoSelectFile, hlen, hf]
  · intro hf hs he
    simp [autoSelectFile, hlen, hf, hs, he]
  · intro hf hse
    have hnot : ¬ (season ≠ [] ∧ episode ≠ []) := by
      rintro ⟨hs, he⟩
      rcases hse with h | h
      · exact hs h
      · exact he h
    unfold autoSelectFile
    rw [if_neg hlen, if_neg (by simpa using hf), if_neg hnot]

/-- The filename hint wins over a season/episode hint that would match: with
the single candidate `Show.S01E05.mkv`, filename `zzz`, season `1` and episode
`5`, the result is that of `selectByFilename`, which is `-1`, although
`selectBySeasonEpisode` finds the candidate. -/
theorem autoSelectFile_priority_chain_witness :
    autoSelectFile Char.toLower [⟨1, "Show.S01E05.mkv".toList, 100⟩]
        "zzz".toList "1".toList "5".toList
      = selectByFilename Char.toLower [⟨1, "Show.S01E05.mkv".toList, 100⟩] "zzz".toList ∧
    selectByFilename Char.toLower [⟨1, "Show.S01E05.mkv".toList, 100⟩] "zzz".toList = -1 ∧
    selectBySeasonEpisode Char.toLower [⟨1, "Show.S01E05.mkv".toList, 100⟩]
        "1".toList "5".toList = 1 :=
  ⟨(autoSelectFile_priority_chain Char.toLower [⟨1, "Show.S01E05.mkv".toList, 100⟩]
      "zzz".toList "1".toList "5".toList (by decide)).1 (by decide),
    by decide, by decide⟩

/-- C2: if some candidate's lowercased final path segment equals the lowercased
hint, `selectByFilename` returns the id of the first such candidate in list
order: the list splits around it with no exact match before it.  Nothing is
asked of the candidate's extension or of the candidates before it. -/
theorem selectByFilename_exact_first (lower : Char → Char)
    (fileStats : List TorrentFileStat) (filename : List Char)
    (h : ∃ f ∈ fileStats, exactMatch lower filename f) :
    ∃ pre file post, fileStats = pre ++ file :: post ∧
      (∀ f ∈ pre, ¬ exactMatch lower filename f) ∧
      exactMatch lower filename file ∧
      selectByFilename lower fileStats filename = file.Id := by
  obtain ⟨f, hf, hex⟩ := h
  cases hfind : fileStats.find?
      (fun file => decide (strings.ToLower lower (filepath.Base file.Path)
        = strings.ToLower lower filename)) with
  | none =>
    rw [List.find?_eq_none] at hfind
    exact absurd (by simpa [exactMatch] using hex) (hfind f hf)
  | some file =>
    obtain ⟨hp, pre, post, hsplit, hpre⟩ := List.find?_eq_some.mp hfind
    refine ⟨pre, file, post, hsplit, ?_, ?_, ?_⟩
    · intro g hg
      simpa [exactMatch] using hpre g hg
    · simpa [exactMatch] using hp
    · simp only [selectByFilename, hfind]

/-- An exact base-name match that is not a video wins over an earlier video
whose path only contains the hint: for the candidates `dir/my notes.txt.mkv`
(id 1) and `docs/Notes.TXT` (id 2) and the hint `notes.txt` the result is 2. -/
theorem selectByFilename_exact_first_witness :
    (∃ pre file post,
      [(⟨1, "dir/my notes.txt.mkv".toList, 100⟩ : TorrentFileStat),
        ⟨2, "docs/Notes.TXT".toList, 10⟩] = pre ++ file :: post ∧
      (∀ f ∈ pre, ¬ exactMatch Char.toLower "notes.txt".toList f) ∧
      exactMatch Char.toLower "notes.txt".toList file ∧
      selectByFilename Char.toLower
        [⟨1, "dir/my notes.txt.mkv".toList, 100⟩, ⟨2, "docs/Notes.TXT".toList, 10⟩]
        "notes.txt".toList = file.Id) ∧
    selectByFilename Char.toLower
      [⟨1, "dir/my notes.txt.mkv".toList, 100⟩, ⟨2, "docs/Notes.TXT".toList, 10⟩]
      "notes.txt".toList = 2 ∧
    isVideoFile Char.toLower "docs/Notes.TXT".toList = false ∧
    partialMatch Char.toLower "notes.txt".toList ⟨1, "dir/my notes.txt.mkv".toList, 100⟩ :=
  ⟨selectByFilename_exact_first Char.toLower
      [⟨1, "dir/my notes.txt.mkv".toList, 100⟩, ⟨2, "docs/Notes.TXT".toList, 10⟩]
      "notes.txt".toList
      ⟨⟨2, "docs/Notes.TXT".toList, 10⟩, by simp, by decide⟩,
    by decide, by decide, by decide⟩

/-- C3: when no candidate's lowercased final path segment equals the lowercased
hint, `selectByFilename` returns the id of the first candidate in list order
that is a video and whose lowercased path contains the lowercased hint, and it
returns `-1` when there is no such candidate (so also when the hint occurs only
in paths of candidates that are not videos). -/
theorem selectByFilename_partial_first (lower : Char → Char)
    (fileStats : List TorrentFileStat) (filename : List Char)
    (hno : ∀ f ∈ fileStats, ¬ exactMatch lower filename f) :
    ((∃ f ∈ fileStats, partialMatch lower filename f) →
      ∃ pre file post, fileStats = pre ++ file :: post ∧
        (∀ f ∈ pre, ¬ partialMatch lower filename f) ∧
        partialMatch lower filename file ∧
        selectByFilename lower fileStats filename = file.Id) ∧
    ((∀ f ∈ fileStats, ¬ partialMatch lower filename f) →
      selectByFilename lower fileStats filename = -1) := by
  have hexact : fileStats.find?
      (fun file => decide (strings.ToLower lower (filepath.Base file.Path)
        = strings.ToLower lower filename)) = none := by
    rw [List.find?_eq_none]
    intro f hf
    simpa [exactMatch] using hno f hf
  have hpart : ∀ f : TorrentFileStat,
      (strings.Contains (strings.ToLower lower f.Path) (strings.ToLower lower filename)
        && isVideoFile lower f.Path) = true ↔ partialMatch lower filename f := by
    intro f
    rw [Bool.and_eq_true, strings.Contains_iff_infix]
    rfl
  constructor
  · rintro ⟨f, hf, hp⟩
    cases hfind : fileStats.find?
        (fun file => strings.Contains (strings.ToLower lower file.Path)
          (strings.ToLower lower filename) && isVideoFile lower file.Path) with
    | none =>
      rw [List.find?_eq_none] at hfind
      exact absurd ((hpart f).mpr hp) (hfind f hf)
    | some file =>
      obtain ⟨hp2, pre, post, hsplit, hpre⟩ := List.find?_eq_some.mp hfind
      refine ⟨pre, file, post, hsplit, ?_, (hpart file).mp hp2, ?_⟩
      · intro g hg hpg
        have := hpre g hg
        rw [(hpart g).mpr hpg] at this
        exact absurd this (by decide)
      · simp only [selectByFilename, hexact, hfind]
  · intro hnone
    have hfind : fileStats.find?
        (fun file => strings.Contains (strings.ToLower lower file.Path)
          (strings.ToLower lower filename) && isVideoFile lower file.Path) = none := by
      rw [List.find?_eq_none]
      intro f hf hp
      exact hnone f hf ((hpart f).mp hp)
    simp only [selectByFilename, hexact, hfind]

/-- With the candidates `docs/readme-show.txt` (id 1), `Season/The.Show.mkv`
(id 2) and `Season/The.Show.2.mkv` (id 3), none of which has the hint as its
base name: the hint `readme` occurs only in the path of the text file and gives
`-1`; the hint `SHOW` gives 2, the first video whose path contains it. -/
theorem selectByFilename_partial_first_witness :
    selectByFilename Char.toLower
      [⟨1, "docs/readme-show.txt".toList, 900⟩, ⟨2, "Season/The.Show.mkv".toList, 10⟩,
        ⟨3, "Season/The.Show.2.mkv".toList, 20⟩] "readme".toList = -1 ∧
    (∃ pre file post,
      [(⟨1, "docs/readme-show.txt".toList, 900⟩ : TorrentFileStat),
        ⟨2, "Season/The.Show.mkv".toList, 10⟩,
        ⟨3, "Season/The.Show.2.mkv".toList, 20⟩] = pre ++ file :: post ∧
      (∀ f ∈ pre, ¬ partialMatch Char.toLower "SHOW".toList f) ∧
      partialMatch Char.toLower "SHOW".toList file ∧
      selectByFilename Char.toLower
        [⟨1, "docs/readme-show.txt".toList, 900⟩, ⟨2, "Season/The.Show.mkv".toList, 10⟩,
          ⟨3, "Season/The.Show.2.mkv".toList, 20⟩] "SHOW".toList = file.Id) ∧
    selectByFilename Char.toLower
      [⟨1, "docs/readme-show.txt".toList, 900⟩, ⟨2, "Season/The.Show.mkv".toList, 10⟩,
        ⟨3, "Season/The.Show.2.mkv".toList, 20⟩] "SHOW".toList = 2 :=
  ⟨(selectByFilename_partial_first Char.toLower
      [⟨1, "docs/readme-show.txt".toList, 900⟩, ⟨2, "Season/The.Show.mkv".toList, 10⟩,
        ⟨3, "Season/The.Show.2.mkv".toList, 20⟩] "readme".toList (by decide)).2 (by decide),
    (selectByFilename_partial_first Char.toLower
      [⟨1, "docs/readme-show.txt".toList, 900⟩, ⟨2, "Season/The.Show.mkv".toList, 10⟩,
        ⟨3, "Season/The.Show.2.mkv".toList, 20⟩] "SHOW".toList (by decide)).1
      ⟨⟨2, "Season/The.Show.mkv".toList, 10⟩, by simp, by decide⟩,
    by decide⟩

/-! ## Properties of `selectLargestVideoFile` -/

/-- C6, as amended: if some candidate is a video, `selectLargestVideoFile`
returns the id of the longest video candidate, the earliest among those of the
greatest length; if no candidate is a video it returns `-1`; when no candidate
has the id `-1`, the result is `-1` only if no candidate is a video; and the
result is the same as on the list of the video candidates alone, so candidates
that are not videos have no influence. -/
theorem selectLargestVideoFile_spec (lower : Char → Char)
    (fileStats : List TorrentFileStat) :
    ((∃ f ∈ fileStats, isVideoFile lower f.Path = true) →
      ∃ file, IsFirstLargest (fun f => isVideoFile lower f.Path) fileStats file ∧
        selectLargestVideoFile lower fileStats = file.Id) ∧
    ((∀ f ∈ fileStats, isVideoFile lower f.Path = false) →
      selectLargestVideoFile lower fileStats = -1) ∧
    ((∀ f ∈ fileStats, f.Id ≠ -1) →
      (selectLargestVideoFile lower fileStats = -1 ↔
        ∀ f ∈ fileStats, isVideoFile lower f.Path = false)) ∧
    selectLargestVideoFile lower fileStats
      = selectLargestVideoFile lower
          (fileStats.filter (fun f => isVideoFile lower f.Path)) := by
  have hspec := keepLargest_foldl_spec (fun f => isVideoFile lower f.Path) fileStats
  have hsome : (∃ f ∈ fileStats, isVideoFile lower f.Path = true) →
      ∃ file, IsFirstLargest (fun f => isVideoFile lower f.Path) fileStats file ∧
        selectLargestVideoFile lower fileStats = file.Id := by
    rintro ⟨f, hf, hv⟩
    rw [selectLargestVideoFile_eq]
    cases hacc : fileStats.foldl (keepLargest (fun f => isVideoFile lower f.Path)) none with
    | none =>
      rw [hacc] at hspec
      have := hspec f hf
      simp only at this
      rw [hv] at this
      exact absurd this (by decide)
    | some cur =>
      rw [hacc] at hspec
      exact ⟨cur, hspec, rfl⟩
  have hnone : (∀ f ∈ fileStats, isVideoFile lower f.Path = false) →
      selectLargestVideoFile lower fileStats = -1 := by
    intro hall
    rw [selectLargestVideoFile_eq]
    cases hacc : fileStats.foldl (keepLargest (fun f => isVideoFile lower f.Path)) none with
    | none => rfl
    | some cur =>
      rw [hacc] at hspec
      obtain ⟨pre, post, hsplit, hcur, _, _⟩ := hspec
      have hmem : cur ∈ fileStats := by rw [hsplit]; simp
      simp only at hcur
      rw [hall cur hmem] at hcur
      exact absurd hcur (by decide)
  refine ⟨hsome, hnone, ?_, ?_⟩
  · intro hid
    constructor
    · intro hres f hf
      by_contra hv
      have hv2 : isVideoFile lower f.Path = true := by simpa using hv
      obtain ⟨file, ⟨pre, post, hsplit, _, _, _⟩, hsel⟩ := hsome ⟨f, hf, hv2⟩
      have hmem : file ∈ fileStats := by rw [hsplit]; simp
      exact hid file hmem (hsel ▸ hres)
    · exact hnone
  · rw [selectLargestVideoFile_eq, selectLargestVideoFile_eq,
      ← keepLargest_foldl_filter (fun f => isVideoFile lower f.Path) fileStats none,
      ← keepLargest_foldl_filter (fun f => isVideoFile lower f.Path)
        (fileStats.filter (fun f => isVideoFile lower f.Path)) none,
      List.filter_filter]
    simp

/-- On `a.txt` (1000 bytes, id 1), `b.mkv` (50, id 2) and `c.mp4` (200, id 3)
the result is 3, the id of `c.mp4`; the text file is the longest but is not a
video. -/
theorem selectLargestVideoFile_spec_witness :
    (∃ file, IsFirstLargest (fun f => isVideoFile Char.toLower f.Path)
        [⟨1, "a.txt".toList, 1000⟩, ⟨2, "b.mkv".toList, 50⟩, ⟨3, "c.mp4".toList, 200⟩] file ∧
      selectLargestVideoFile Char.toLower
        [⟨1, "a.txt".toList, 1000⟩, ⟨2, "b.mkv".toList, 50⟩, ⟨3, "c.mp4".toList, 200⟩]
        = file.Id) ∧
    selectLargestVideoFile Char.toLower
      [⟨1, "a.txt".toList, 1000⟩, ⟨2, "b.mkv".toList, 50⟩, ⟨3, "c.mp4".toList, 200⟩] = 3 ∧
    selectLargestVideoFile Char.toLower [⟨1, "a.txt".toList, 1000⟩] = -1 :=
  ⟨(selectLargestVideoFile_spec Char.toLower
      [⟨1, "a.txt".toList, 1000⟩, ⟨2, "b.mkv".toList, 50⟩, ⟨3, "c.mp4".toList, 200⟩]).1
      ⟨⟨2, "b.mkv".toList, 50⟩, by simp, by decide⟩,
    by decide,
    (selectLargestVideoFile_spec Char.toLower [⟨1, "a.txt".toList, 1000⟩]).2.1 (by decide)⟩

/-- The claim C6 as stated fails for a video candidate whose id is `-1`: on the
single candidate `a.mkv` with id `-1` the result is `-1` although a candidate
is a video. -/
theorem selectLargestVideoFile_notFound_counterexample :
    ¬ (selectLargestVideoFile Char.toLower [⟨-1, "a.mkv".toList, 5⟩] = -1 ↔
        ∀ f ∈ [(⟨-1, "a.mkv".toList, 5⟩ : TorrentFileStat)],
          isVideoFile Char.toLower f.Path = false) := by
  decide

/-! ## Properties of `play` -/

theorem play_eq_playResolve (lower : Char → Char) (env : Env) (c : Request) (tor : Torrent)
    (h : ReachesIndexResolution env c tor) :
    play lower env c = playResolve lower c tor := by
  obtain ⟨hh, hi, spec, found, hparse, hget, hreg, hinfo⟩ := h
  rcases hreg with ⟨hdb, hadd⟩ | ⟨hdb, rfl⟩
  · simp [play, hh, hi, hparse, hget, hdb, hadd, hinfo]
  · simp [play, hh, hi, hparse, hget, hdb, hinfo]

theorem playResolve_cases (lower : Char → Char) (c : Request) (tor : Torrent) :
    playResolve lower c tor
        = [.AbortWithError 404 "no suitable file found for auto-selection"] ∨
      playResolve lower c tor = [.AbortWithError 400 "\"index\" is wrong"] ∨
      ∃ index : Int, index ≠ -1 ∧ playResolve lower c tor = [.Stream index] := by
  have key : ∀ index : Int,
      playIndex index = [.AbortWithError 400 "\"index\" is wrong"] ∨
        ∃ i : Int, i ≠ -1 ∧ playIndex index = [.Stream i] := by
    intro index
    by_cases h : index = -1
    · left
      simp [playIndex, h]
    · right
      exact ⟨index, h, by simp [playIndex, h]⟩
  unfold playResolve
  simp only
  generalize (if tor.Files.length = 1 then (1 : Int)
    else match strconv.Atoi c.indexStr with
      | some ind => ind
      | none => -1) = index
  by_cases h10 : index = -10
  · rw [if_pos h10]
    by_cases ha : autoSelectFile lower tor.FileStats c.filename c.season c.episode = -1
    · rw [if_pos ha]
      exact Or.inl rfl
    · rw [if_neg ha]
      exact Or.inr (key _)
  · rw [if_neg h10]
    exact Or.inr (key _)

theorem play_of_handle (lower : Char → Char) (env : Env) (c : Request)
    (spec : TorrentSpec) (found : Torrent) (hh : c.hash ≠ []) (hi : c.indexStr ≠ [])
    (hparse : env.ParseLink c.hash = .ok spec)
    (hget : env.GetTorrent spec.InfoHash = some found) :
    play lower env c =
      match (if found.Stat = .TorrentInDB then
          env.AddTorrent spec found.Title found.Poster found.Data found.Category
        else .ok found : Except String Torrent) with
      | .error err => [.AbortWithError 500 err]
      | .ok tor =>
        if tor.GotInfo = false then [.AbortWithError 500 "timeout connection torrent"]
        else playResolve lower c tor := by
  simp [play, hh, hi, hparse, hget]

theorem play_no_handle_challenge (lower : Char → Char) (env : Env) (c : Request)
    (spec : TorrentSpec) (hh : c.hash ≠ []) (hi : c.indexStr ≠ [])
    (hparse : env.ParseLink c.hash = .ok spec)
    (hc : c.authRequired = true ∧ c.authUser = [] ∧ env.GetTorrent spec.InfoHash = none) :
    play lower env c = challenge := by
  obtain ⟨ha, hu, hget⟩ := hc
  simp [play, hh, hi, hparse, hget, ha, hu, challenge]

theorem play_no_handle_error (lower : Char → Char) (env : Env) (c : Request)
    (spec : TorrentSpec) (hh : c.hash ≠ []) (hi : c.indexStr ≠ [])
    (hparse : env.ParseLink c.hash = .ok spec)
    (hget : env.GetTorrent spec.InfoHash = none)
    (hna : ¬ (c.authRequired = true ∧ c.authUser = [])) :
    play lower env c = [.AbortWithError 500 "error get torrent"] := by
  have hna2 : c.authRequired = true → ¬ c.authUser = [] := fun ha hu => hna ⟨ha, hu⟩
  simpa [play, hh, hi, hparse, hget] using hna2

/-- C8: for every request that reaches index resolution on a handle whose file
list does not have exactly one file (so in particular on one with more than one
file): if the token parses to `-10` and `autoSelectFile` returns `-1`, `play`
aborts with status 404; if the token does not parse as an integer, `play` aborts
with status 400; in both cases the transport is not called. -/
theorem play_index_failures (lower : Char → Char) (env : Env) (c : Request) (tor : Torrent)
    (h : ReachesIndexResolution env c tor) (hmany : tor.Files.length ≠ 1) :
    (strconv.Atoi c.indexStr = some (-10) →
      autoSelectFile lower tor.FileStats c.filename c.season c.episode = -1 →
      play lower env c
          = [.AbortWithError 404 "no suitable file found for auto-selection"] ∧
        abortCodes (play lower env c) = [404] ∧ streamCalls (play lower env c) = []) ∧
    (strconv.Atoi c.indexStr = none →
      play lower env c = [.AbortWithError 400 "\"index\" is wrong"] ∧
        abortCodes (play lower env c) = [400] ∧ streamCalls (play lower env c) = []) := by
  rw [play_eq_playResolve lower env c tor h]
  constructor
  · intro hatoi hauto
    have : playResolve lower c tor
        = [.AbortWithError 404 "no suitable file found for auto-selection"] := by
      simp [playResolve, hmany, hatoi, hauto]
    rw [this]
    exact ⟨rfl, rfl, rfl⟩
  · intro hatoi
    have : playResolve lower c tor = [.AbortWithError 400 "\"index\" is wrong"] := by
      simp [playResolve, playIndex, hmany, hatoi]
    rw [this]
    exact ⟨rfl, rfl, rfl⟩

/-- On a handle with the two files `notes.txt` and `cover.jpg`: the token `-10`
finds no video and is answered 404; the token `abc` is answered 400. -/
theorem play_index_failures_witness :
    abortCodes (play Char.toLower
        (sampleEnv (.ok ⟨"abc".toList⟩)
          (some (sampleTorrent .TorrentWorking true
            [⟨1, "notes.txt".toList, 7⟩, ⟨2, "cover.jpg".toList, 9⟩]))
          (.error "unused"))
        ⟨"abc".toList, "-10".toList, [], [], [], false, []⟩) = [404] ∧
    abortCodes (play Char.toLower
        (sampleEnv (.ok ⟨"abc".toList⟩)
          (some (sampleTorrent .TorrentWorking true
            [⟨1, "notes.txt".toList, 7⟩, ⟨2, "cover.jpg".toList, 9⟩]))
          (.error "unused"))
        ⟨"abc".toList, "abc".toList, [], [], [], false, []⟩) = [400] :=
  ⟨((play_index_failures Char.toLower
      (sampleEnv (.ok ⟨"abc".toList⟩)
        (some (sampleTorrent .TorrentWorking true
          [⟨1, "notes.txt".toList, 7⟩, ⟨2, "cover.jpg".toList, 9⟩]))
        (.error "unused"))
      ⟨"abc".toList, "-10".toList, [], [], [], false, []⟩
      (sampleTorrent .TorrentWorking true
        [⟨1, "notes.txt".toList, 7⟩, ⟨2, "cover.jpg".toList, 9⟩])
      ⟨by decide, by decide, ⟨"abc".toList⟩, _, rfl, rfl, Or.inr ⟨by decide, rfl⟩, rfl⟩
      (by decide)).1 (by decide) (by decide)).2.1,
   ((play_index_failures Char.toLower
      (sampleEnv (.ok ⟨"abc".toList⟩)
        (some (sampleTorrent .TorrentWorking true
          [⟨1, "notes.txt".toList, 7⟩, ⟨2, "cover.jpg".toList, 9⟩]))
        (.error "unused"))
      ⟨"abc".toList, "abc".toList, [], [], [], false, []⟩
      (sampleTorrent .TorrentWorking true
        [⟨1, "notes.txt".toList, 7⟩, ⟨2, "cover.jpg".toList, 9⟩])
      ⟨by decide, by decide, ⟨"abc".toList⟩, _, rfl, rfl, Or.inr ⟨by decide, rfl⟩, rfl⟩
      (by decide)).2 (by decide)).2.1⟩

/-- C9: for every request with a non-empty hash and token whose link parses,
`play` answers 401 if and only if authorization is required, no authenticated
user is present and the manager has no handle, and the answer is then the
credential challenge; when there is a handle the authorization fields of the
request have no effect on what `play` does; when there is no handle and the
caller is not in the unauthenticated case, `play` answers 500. -/
theorem play_authorization_gate (lower : Char → Char) (env : Env) (c : Request)
    (spec : TorrentSpec) (hh : c.hash ≠ []) (hi : c.indexStr ≠ [])
    (hparse : env.ParseLink c.hash = .ok spec) :
    (401 ∈ abortCodes (play lower env c) ↔
      (c.authRequired = true ∧ c.authUser = [] ∧ env.GetTorrent spec.InfoHash = none)) ∧
    (c.authRequired = true ∧ c.authUser = [] ∧ env.GetTorrent spec.InfoHash = none →
      play lower env c = challenge) ∧
    (∀ tor, env.GetTorrent spec.InfoHash = some tor →
      ∀ (authRequired : Bool) (authUser : List Char),
        play lower env { c with authRequired := authRequired, authUser := authUser }
          = play lower env c) ∧
    (env.GetTorrent spec.InfoHash = none → ¬ (c.authRequired = true ∧ c.authUser = []) →
      play lower env c = [.AbortWithError 500 "error get torrent"]) := by
  have hchal := play_no_handle_challenge lower env c spec hh hi hparse
  have h500 := play_no_handle_error lower env c spec hh hi hparse
  refine ⟨⟨?_, ?_⟩, hchal, ?_, h500⟩
  · intro hmem
    cases hget : env.GetTorrent spec.InfoHash with
    | none =>
      by_cases hna : c.authRequired = true ∧ c.authUser = []
      · exact ⟨hna.1, hna.2, rfl⟩
      · rw [h500 hget hna] at hmem
        simp [abortCodes] at hmem
    | some tor =>
      exfalso
      rw [play_of_handle lower env c spec tor hh hi hparse hget] at hmem
      revert hmem
      split
      · simp [abortCodes]
      · split
        · simp [abortCodes]
        · rename_i tor2 _ _
          rcases playResolve_cases lower c tor2 with h | h | ⟨index, _, h⟩ <;>
            rw [h] <;> simp [abortCodes]
  · intro hc
    rw [hchal hc]
    decide
  · intro tor hget authRequired authUser
    rw [play_of_handle lower env c spec tor hh hi hparse hget,
      play_of_handle lower env
        { c with authRequired := authRequired, authUser := authUser }
        spec tor hh hi hparse hget]
    rfl

/-- With a handle of two video files and the token `2`, a caller without
credentials on a server that requires authorization is served like any other;
without a handle the same caller is challenged, and an authenticated caller is
answered 500. -/
theorem play_authorization_gate_witness :
    play Char.toLower
        (sampleEnv (.ok ⟨"abc".toList⟩)
          (some (sampleTorrent .TorrentWorking true
            [⟨1, "a.mkv".toList, 7⟩, ⟨2, "b.mkv".toList, 9⟩]))
          (.error "unused"))
        ⟨"abc".toList, "2".toList, [], [], [], true, []⟩ = [.Stream 2] ∧
    play Char.toLower (sampleEnv (.ok ⟨"abc".toList⟩) none (.error "unused"))
        ⟨"abc".toList, "2".toList, [], [], [], true, []⟩ = challenge ∧
    play Char.toLower (sampleEnv (.ok ⟨"abc".toList⟩) none (.error "unused"))
        ⟨"abc".toList, "2".toList, [], [], [], true, "admin".toList⟩
      = [.AbortWithError 500 "error get torrent"] :=
  ⟨by decide,
    (play_authorization_gate Char.toLower
      (sampleEnv (.ok ⟨"abc".toList⟩) none (.error "unused"))
      ⟨"abc".toList, "2".toList, [], [], [], true, []⟩ ⟨"abc".toList⟩
      (by decide) (by decide) rfl).2.1 ⟨rfl, rfl, rfl⟩,
    (play_authorization_gate Char.toLower
      (sampleEnv (.ok ⟨"abc".toList⟩) none (.error "unused"))
      ⟨"abc".toList, "2".toList, [], [], [], true, "admin".toList⟩ ⟨"abc".toList⟩
      (by decide) (by decide) rfl).2.2.2 rfl (by decide)⟩

/-- C4: for digit-only hints, when a pattern wins (it is the first of the
patterns, in their order, for which some video candidate matches), that pattern
compiles to one of the five compiled forms and `selectBySeasonEpisode` returns
the id of a video candidate matching it which is at least as long as every video
candidate matching it and is the earliest in list order among those of the
greatest length. -/
theorem selectBySeasonEpisode_largest_match (lower : Char → Char)
    (fileStats : List TorrentFileStat) (season episode : List Char)
    (hs : digitsOnly season = true) (he : digitsOnly episode = true)
    (pre : List (List Char)) (p : List Char) (post : List (List Char))
    (hsplit : seasonEpisodePatterns season episode = pre ++ p :: post)
    (hpre : ∀ q ∈ pre, ∀ f ∈ fileStats, eligible lower q f = false)
    (hp : ∃ f ∈ fileStats, eligible lower p f = true) :
    (∃ re ∈ compiledPatterns season episode, regexp.Compile p = some re) ∧
    ∃ file, IsFirstLargest (eligible lower p) fileStats file ∧
      selectBySeasonEpisode lower fileStats season episode = file.Id := by
  have hcompiled : ∃ re ∈ compiledPatterns season episode, regexp.Compile p = some re := by
    have hc := seasonEpisodePatterns_compile season episode hs he
    have hmem : regexp.Compile p ∈ (seasonEpisodePatterns season episode).map regexp.Compile :=
      List.mem_map_of_mem _ (by rw [hsplit]; simp)
    rw [hc] at hmem
    obtain ⟨re, hre, heq⟩ := List.mem_map.mp hmem
    exact ⟨re, hre, heq.symm⟩
  refine ⟨hcompiled, ?_⟩
  have hsearch := searchPatterns_winning lower fileStats pre p post hpre hp
  have hfold := keepLargest_foldl_filter (eligible lower p) fileStats none
  have hspec := keepLargest_foldl_spec (eligible lower p) fileStats
  unfold selectBySeasonEpisode
  rw [hsplit, hsearch]
  cases hm : fileStats.filter (eligible lower p) with
  | nil =>
    obtain ⟨f, hf, hel⟩ := hp
    have hmem : f ∈ fileStats.filter (eligible lower p) := List.mem_filter.mpr ⟨hf, hel⟩
    rw [hm] at hmem
    simp at hmem
  | cons first more =>
    rw [hm, largestOf_eq_keepLargest first more] at hfold
    rw [← hfold] at hspec
    exact ⟨largestOf first (first :: more), hspec, rfl⟩

/-- Season `1`, episode `5` and the candidates `Show.S01E05.mkv` (100 bytes,
id 1) and `Show.S01E05.sample.mkv` (10 bytes, id 2): the first pattern matches
both and the result is 1, the id of the longer file. -/
theorem selectBySeasonEpisode_largest_match_witness :
    (∃ file, IsFirstLargest (eligible Char.toLower "[Ss]01[Ee]05".toList)
        [⟨1, "Show.S01E05.mkv".toList, 100⟩, ⟨2, "Show.S01E05.sample.mkv".toList, 10⟩] file ∧
      selectBySeasonEpisode Char.toLower
        [⟨1, "Show.S01E05.mkv".toList, 100⟩, ⟨2, "Show.S01E05.sample.mkv".toList, 10⟩]
        "1".toList "5".toList = file.Id) ∧
    selectBySeasonEpisode Char.toLower
      [⟨1, "Show.S01E05.mkv".toList, 100⟩, ⟨2, "Show.S01E05.sample.mkv".toList, 10⟩]
      "1".toList "5".toList = 1 :=
  ⟨(selectBySeasonEpisode_largest_match Char.toLower
      [⟨1, "Show.S01E05.mkv".toList, 100⟩, ⟨2, "Show.S01E05.sample.mkv".toList, 10⟩]
      "1".toList "5".toList (by decide) (by decide)
      [] "[Ss]01[Ee]05".toList
      ["[Ss]01\\.?[Ee]05".toList, "1x05".toList, "01x05".toList,
        "[Ss]eason[.\\s]?1.*[Ee]pisode[.\\s]?5".toList]
      (by decide) (by simp)
      ⟨⟨1, "Show.S01E05.mkv".toList, 100⟩, by simp, by decide⟩).2,
    by decide⟩

/-- C5: for digit-only hints the five patterns all compile, and the winning
pattern is the first of them, in the order of the source, that matches the path
of some video candidate (candidates that are not videos do not count): the
matches the search loop ends with are exactly the video candidates that pattern
matches, the result is the id of one of them, and, the ids being distinct, it is
never the id of a candidate that is not among them, such as a video matching
only a later pattern. -/
theorem selectBySeasonEpisode_first_pattern_wins (lower : Char → Char)
    (fileStats : List TorrentFileStat) (season episode : List Char)
    (hs : digitsOnly season = true) (he : digitsOnly episode = true)
    (pre : List (List Char)) (p : List Char) (post : List (List Char))
    (hsplit : seasonEpisodePatterns season episode = pre ++ p :: post)
    (hpre : ∀ q ∈ pre, ∀ f ∈ fileStats, eligible lower q f = false)
    (hp : ∃ f ∈ fileStats, eligible lower p f = true) :
    (seasonEpisodePatterns season episode).length = 5 ∧
    (∀ q ∈ seasonEpisodePatterns season episode, (regexp.Compile q).isSome = true) ∧
    searchPatterns lower fileStats (seasonEpisodePatterns season episode) []
      = fileStats.filter (eligible lower p) ∧
    (∃ file ∈ fileStats, eligible lower p file = true ∧
      selectBySeasonEpisode lower fileStats season episode = file.Id) ∧
    ((fileStats.map TorrentFileStat.Id).Nodup →
      ∀ g ∈ fileStats, eligible lower p g = false →
        selectBySeasonEpisode lower fileStats season episode ≠ g.Id) := by
  have hsearch : searchPatterns lower fileStats (seasonEpisodePatterns season episode) []
      = fileStats.filter (eligible lower p) := by
    rw [hsplit]
    exact searchPatterns_winning lower fileStats pre p post hpre hp
  have hres : ∃ file ∈ fileStats, eligible lower p file = true ∧
      selectBySeasonEpisode lower fileStats season episode = file.Id := by
    unfold selectBySeasonEpisode
    rw [hsearch]
    cases hm : fileStats.filter (eligible lower p) with
    | nil =>
      obtain ⟨f, hf, hel⟩ := hp
      have hmem : f ∈ fileStats.filter (eligible lower p) := List.mem_filter.mpr ⟨hf, hel⟩
      rw [hm] at hmem
      simp at hmem
    | cons first more =>
      have hin : largestOf first (first :: more) ∈ fileStats.filter (eligible lower p) := by
        rw [hm]
        rcases largestOf_mem first (first :: more) with h | h
        · rw [h]; exact List.mem_cons_self first more
        · exact h
      obtain ⟨hfs, hel⟩ := List.mem_filter.mp hin
      exact ⟨_, hfs, hel, rfl⟩
  refine ⟨by simp [seasonEpisodePatterns], ?_, hsearch, hres, ?_⟩
  · intro q hq
    have hc := seasonEpisodePatterns_compile season episode hs he
    have hmem : regexp.Compile q ∈ (seasonEpisodePatterns season episode).map regexp.Compile :=
      List.mem_map_of_mem _ hq
    rw [hc] at hmem
    obtain ⟨r, _, hr⟩ := List.mem_map.mp hmem
    rw [← hr]
    rfl
  · intro hnodup g hg hgel heq
    obtain ⟨file, hfile, hel, hid⟩ := hres
    have hsame : file = g :=
      List.inj_on_of_nodup_map hnodup hfile hg (by rw [← hid, heq])
    rw [hsame, hgel] at hel
    exact absurd hel (by decide)

/-- Season `1`, episode `5` and the candidates `Show.S01E05.txt` (id 1, not a
video, matched by the first two patterns), `Show.1x05.mkv` (id 2, 5 bytes) and
`Season 1 Episode 5.mkv` (id 3, 5000 bytes, matched by the fifth pattern only):
the third pattern wins and the result is 2. -/
theorem selectBySeasonEpisode_first_pattern_wins_witness :
    patternMatches "[Ss]01[Ee]05".toList "Show.S01E05.txt".toList = true ∧
    eligible Char.toLower "[Ss]eason[.\\s]?1.*[Ee]pisode[.\\s]?5".toList
      ⟨3, "Season 1 Episode 5.mkv".toList, 5000⟩ = true ∧
    selectBySeasonEpisode Char.toLower
      [⟨1, "Show.S01E05.txt".toList, 999⟩, ⟨2, "Show.1x05.mkv".toList, 5⟩,
        ⟨3, "Season 1 Episode 5.mkv".toList, 5000⟩] "1".toList "5".toList = 2 ∧
    searchPatterns Char.toLower
      [⟨1, "Show.S01E05.txt".toList, 999⟩, ⟨2, "Show.1x05.mkv".toList, 5⟩,
        ⟨3, "Season 1 Episode 5.mkv".toList, 5000⟩]
      (seasonEpisodePatterns "1".toList "5".toList) []
      = [(⟨1, "Show.S01E05.txt".toList, 999⟩ : TorrentFileStat),
          ⟨2, "Show.1x05.mkv".toList, 5⟩,
          ⟨3, "Season 1 Episode 5.mkv".toList, 5000⟩].filter
            (eligible Char.toLower "1x05".toList) :=
  ⟨by decide, by decide, by decide,
    (selectBySeasonEpisode_first_pattern_wins Char.toLower
      [⟨1, "Show.S01E05.txt".toList, 999⟩, ⟨2, "Show.1x05.mkv".toList, 5⟩,
        ⟨3, "Season 1 Episode 5.mkv".toList, 5000⟩] "1".toList "5".toList
      (by decide) (by decide)
      ["[Ss]01[Ee]05".toList, "[Ss]01\\.?[Ee]05".toList] "1x05".toList
      ["01x05".toList, "[Ss]eason[.\\s]?1.*[Ee]pisode[.\\s]?5".toList]
      (by decide) (by decide)
      ⟨⟨2, "Show.1x05.mkv".toList, 5⟩, by simp, by decide⟩).2.2.1⟩

/-! ### The selection over a list of patterns -/

theorem selectBySeasonEpisode_eq_selectByPatterns (lower : Char → Char)
    (fileStats : List TorrentFileStat) (season episode : List Char) :
    selectBySeasonEpisode lower fileStats season episode
      = selectByPatterns lower fileStats (seasonEpisodePatterns season episode) := rfl

theorem searchPatterns_none (lower : Char → Char) (fileStats : List TorrentFileStat)
    (patterns : List (List Char))
    (h : ∀ p ∈ patterns, ∀ f ∈ fileStats, eligible lower p f = false) :
    searchPatterns lower fileStats patterns [] = [] := by
  induction patterns with
  | nil => rfl
  | cons q qs ih =>
    rw [searchPatterns_cons]
    have hnil : fileStats.filter (eligible lower q) = [] := by
      rw [List.filter_eq_nil_iff]
      intro f hf
      simp [h q (List.mem_cons_self q qs) f hf]
    rw [if_pos hnil]
    exact ih (fun r hr => h r (List.mem_cons_of_mem q hr))

theorem exists_first_pattern (lower : Char → Char) (fileStats : List TorrentFileStat)
    (patterns : List (List Char))
    (h : ∃ p ∈ patterns, ∃ f ∈ fileStats, eligible lower p f = true) :
    ∃ pre p post, patterns = pre ++ p :: post ∧
      (∀ q ∈ pre, ∀ f ∈ fileStats, eligible lower q f = false) ∧
      ∃ f ∈ fileStats, eligible lower p f = true := by
  induction patterns with
  | nil =>
    obtain ⟨p, hp, _⟩ := h
    simp at hp
  | cons q qs ih =>
    by_cases hq : ∃ f ∈ fileStats, eligible lower q f = true
    · exact ⟨[], q, qs, rfl, by simp, hq⟩
    · have hq2 : ∀ f ∈ fileStats, eligible lower q f = false := by
        intro f hf
        cases he : eligible lower q f with
        | false => rfl
        | true => exact absurd ⟨f, hf, he⟩ hq
      obtain ⟨p, hp, hpf⟩ := h
      rcases List.mem_cons.mp hp with rfl | hp2
      · exact absurd hpf hq
      · obtain ⟨pre, p2, post, hsplit, hpre, hp2f⟩ := ih ⟨p, hp2, hpf⟩
        refine ⟨q :: pre, p2, post, by rw [hsplit]; rfl, ?_, hp2f⟩
        intro r hr
        rcases List.mem_cons.mp hr with rfl | hr2
        · exact hq2
        · exact hpre r hr2

theorem selectByPatterns_none (lower : Char → Char) (fileStats : List TorrentFileStat)
    (patterns : List (List Char))
    (h : ∀ p ∈ patterns, ∀ f ∈ fileStats, eligible lower p f = false) :
    selectByPatterns lower fileStats patterns = -1 := by
  unfold selectByPatterns
  rw [searchPatterns_none lower fileStats patterns h]

theorem selectByPatterns_winning (lower : Char → Char) (fileStats : List TorrentFileStat)
    (pre : List (List Char)) (p : List Char) (post : List (List Char))
    (hpre : ∀ q ∈ pre, ∀ f ∈ fileStats, eligible lower q f = false)
    (hp : ∃ f ∈ fileStats, eligible lower p f = true) :
    ∃ file, IsFirstLargest (eligible lower p) fileStats file ∧
      selectByPatterns lower fileStats (pre ++ p :: post) = file.Id := by
  have hfold := keepLargest_foldl_filter (eligible lower p) fileStats none
  have hspec := keepLargest_foldl_spec (eligible lower p) fileStats
  unfold selectByPatterns
  rw [searchPatterns_winning lower fileStats pre p post hpre hp]
  cases hm : fileStats.filter (eligible lower p) with
  | nil =>
    obtain ⟨f, hf, hel⟩ := hp
    have hmem : f ∈ fileStats.filter (eligible lower p) := List.mem_filter.mpr ⟨hf, hel⟩
    rw [hm] at hmem
    simp at hmem
  | cons first more =>
    rw [hm, largestOf_eq_keepLargest first more] at hfold
    rw [← hfold] at hspec
    exact ⟨largestOf first (first :: more), hspec, rfl⟩

theorem IsFirstLargest.mem {elig : TorrentFileStat → Bool} {l : List TorrentFileStat}
    {file : TorrentFileStat} (h : IsFirstLargest elig l file) :
    file ∈ l ∧ elig file = true := by
  obtain ⟨pre, post, hsplit, hel, _, _⟩ := h
  exact ⟨by rw [hsplit]; simp, hel⟩

theorem selectByPatterns_mem (lower : Char → Char) (fileStats : List TorrentFileStat)
    (patterns : List (List Char)) :
    selectByPatterns lower fileStats patterns = -1 ∨
      ∃ f ∈ fileStats, isVideoFile lower f.Path = true ∧
        f.Id = selectByPatterns lower fileStats patterns := by
  by_cases h : ∃ p ∈ patterns, ∃ f ∈ fileStats, eligible lower p f = true
  · obtain ⟨pre, p, post, hsplit, hpre, hp⟩ := exists_first_pattern lower fileStats patterns h
    obtain ⟨file, hfl, hres⟩ := selectByPatterns_winning lower fileStats pre p post hpre hp
    obtain ⟨hmem, hel⟩ := hfl.mem
    right
    refine ⟨file, hmem, ?_, ?_⟩
    · simp only [eligible, Bool.and_eq_true] at hel
      exact hel.1
    · rw [hsplit, hres]
  · left
    apply selectByPatterns_none
    intro p hp f hf
    cases he : eligible lower p f with
    | false => rfl
    | true => exact absurd ⟨p, hp, f, hf, he⟩ h

theorem selectByFilename_mem (lower : Char → Char) (fileStats : List TorrentFileStat)
    (filename : List Char) :
    selectByFilename lower fileStats filename = -1 ∨
      ∃ f ∈ fileStats, f.Id = selectByFilename lower fileStats filename := by
  unfold selectByFilename
  simp only
  cases h1 : fileStats.find?
      (fun file => decide (strings.ToLower lower (filepath.Base file.Path)
        = strings.ToLower lower filename)) with
  | some f => exact Or.inr ⟨f, List.mem_of_find?_eq_some h1, rfl⟩
  | none =>
    cases h2 : fileStats.find?
        (fun file => strings.Contains (strings.ToLower lower file.Path)
          (strings.ToLower lower filename) && isVideoFile lower file.Path) with
    | some f => exact Or.inr ⟨f, List.mem_of_find?_eq_some h2, rfl⟩
    | none => exact Or.inl rfl

theorem selectLargestVideoFile_mem (lower : Char → Char) (fileStats : List TorrentFileStat) :
    selectLargestVideoFile lower fileStats = -1 ∨
      ∃ f ∈ fileStats, isVideoFile lower f.Path = true ∧
        f.Id = selectLargestVideoFile lower fileStats := by
  have hspec := keepLargest_foldl_spec (fun f => isVideoFile lower f.Path) fileStats
  rw [selectLargestVideoFile_eq]
  cases hacc : fileStats.foldl (keepLargest (fun f => isVideoFile lower f.Path)) none with
  | none => exact Or.inl rfl
  | some cur =>
    rw [hacc] at hspec
    obtain ⟨hmem, hel⟩ := hspec.mem
    exact Or.inr ⟨cur, hmem, hel, rfl⟩

theorem autoSelectFile_id (lower : Char → Char) (fileStats : List TorrentFileStat)
    (filename season episode : List Char) :
    autoSelectFile lower fileStats filename season episode = -1 ∨
      ∃ f ∈ fileStats, f.Id = autoSelectFile lower fileStats filename season episode := by
  unfold autoSelectFile
  split_ifs with h1 h2 h3
  · exact Or.inl rfl
  · exact selectByFilename_mem lower fileStats filename
  · rcases selectByPatterns_mem lower fileStats (seasonEpisodePatterns season episode) with
      h | ⟨f, hf, _, hid⟩
    · exact Or.inl h
    · exact Or.inr ⟨f, hf, hid⟩
  · rcases selectLargestVideoFile_mem lower fileStats with h | ⟨f, hf, _, hid⟩
    · exact Or.inl h
    · exact Or.inr ⟨f, hf, hid⟩

theorem eligible_compiled (lower : Char → Char) (fileStats : List TorrentFileStat)
    (season episode : List Char)
    (hs : digitsOnly season = true) (he : digitsOnly episode = true) :
    (∃ p ∈ seasonEpisodePatterns season episode, ∃ f ∈ fileStats,
        eligible lower p f = true) ↔
      (∃ re ∈ compiledPatterns season episode, ∃ f ∈ fileStats,
        isVideoFile lower f.Path = true ∧ regexp.MatchString re f.Path = true) := by
  have hc := seasonEpisodePatterns_compile season episode hs he
  constructor
  · rintro ⟨p, hp, f, hf, hel⟩
    have hmem : regexp.Compile p ∈ (seasonEpisodePatterns season episode).map regexp.Compile :=
      List.mem_map_of_mem _ hp
    rw [hc] at hmem
    obtain ⟨re, hre, heq⟩ := List.mem_map.mp hmem
    refine ⟨re, hre, f, hf, ?_⟩
    simpa [eligible, patternMatches, ← heq] using hel
  · rintro ⟨re, hre, f, hf, hv, hm⟩
    have hmem : some re ∈ (compiledPatterns season episode).map some :=
      List.mem_map_of_mem _ hre
    rw [← hc] at hmem
    obtain ⟨p, hp, heq⟩ := List.mem_map.mp hmem
    refine ⟨p, hp, f, hf, ?_⟩
    simp [eligible, patternMatches, heq, hv, hm]

/-! ## Further properties of `selectBySeasonEpisode` and `autoSelectFile` -/

/-- C13: for digit-only hints and candidate ids different from `-1`,
`selectBySeasonEpisode` returns `-1` if and only if no video candidate has a path
matched by any of the five patterns, for a candidate list of any length; the
condition is stated both on the pattern strings of the source and on their
compiled forms. -/
theorem selectBySeasonEpisode_notFound_iff (lower : Char → Char)
    (fileStats : List TorrentFileStat) (season episode : List Char)
    (hs : digitsOnly season = true) (he : digitsOnly episode = true)
    (hid : ∀ f ∈ fileStats, f.Id ≠ -1) :
    (selectBySeasonEpisode lower fileStats season episode = -1 ↔
      ∀ p ∈ seasonEpisodePatterns season episode, ∀ f ∈ fileStats,
        eligible lower p f = false) ∧
    (selectBySeasonEpisode lower fileStats season episode = -1 ↔
      ∀ re ∈ compiledPatterns season episode, ∀ f ∈ fileStats,
        isVideoFile lower f.Path = true → regexp.MatchString re f.Path = false) := by
  have hfirst : selectBySeasonEpisode lower fileStats season episode = -1 ↔
      ∀ p ∈ seasonEpisodePatterns season episode, ∀ f ∈ fileStats,
        eligible lower p f = false := by
    rw [selectBySeasonEpisode_eq_selectByPatterns]
    constructor
    · intro hres p hp f hf
      cases hel : eligible lower p f with
      | false => rfl
      | true =>
        exfalso
        obtain ⟨pre, q, post, hsplit, hpre, hq⟩ :=
          exists_first_pattern lower fileStats _ ⟨p, hp, f, hf, hel⟩
        obtain ⟨file, hfl, hsel⟩ := selectByPatterns_winning lower fileStats pre q post hpre hq
        rw [hsplit, hsel] at hres
        exact hid file hfl.mem.1 hres
    · exact selectByPatterns_none lower fileStats _
  refine ⟨hfirst, ?_⟩
  rw [hfirst]
  have hcomp := eligible_compiled lower fileStats season episode hs he
  constructor
  · intro hno re hre f hf hv
    cases hm : regexp.MatchString re f.Path with
    | false => rfl
    | true =>
      obtain ⟨p, hp, g, hg, hel⟩ := hcomp.mpr ⟨re, hre, f, hf, hv, hm⟩
      rw [hno p hp g hg] at hel
      exact absurd hel (by decide)
  · intro hno p hp f hf
    cases hel : eligible lower p f with
    | false => rfl
    | true =>
      obtain ⟨re, hre, g, hg, hv, hm⟩ := hcomp.mp ⟨p, hp, f, hf, hel⟩
      rw [hno re hre g hg hv] at hm
      exact absurd hm (by decide)

/-- Season `1`, episode `5`: the three candidates `Show.S02E05.mkv`,
`Show.S01E05.nfo` and `Extras/Trailer.mp4` give `-1` (the only path a pattern
matches is not a video); adding `Show.S01.E05.avi` with id 4 gives 4. -/
theorem selectBySeasonEpisode_notFound_iff_witness :
    selectBySeasonEpisode Char.toLower
      [⟨1, "Show.S02E05.mkv".toList, 100⟩, ⟨2, "Show.S01E05.nfo".toList, 1⟩,
        ⟨3, "Extras/Trailer.mp4".toList, 50⟩] "1".toList "5".toList = -1 ∧
    selectBySeasonEpisode Char.toLower
      [⟨1, "Show.S02E05.mkv".toList, 100⟩, ⟨2, "Show.S01E05.nfo".toList, 1⟩,
        ⟨3, "Extras/Trailer.mp4".toList, 50⟩, ⟨4, "Show.S01.E05.avi".toList, 70⟩]
      "1".toList "5".toList = 4 :=
  ⟨((selectBySeasonEpisode_notFound_iff Char.toLower
      [⟨1, "Show.S02E05.mkv".toList, 100⟩, ⟨2, "Show.S01E05.nfo".toList, 1⟩,
        ⟨3, "Extras/Trailer.mp4".toList, 50⟩] "1".toList "5".toList
      (by decide) (by decide) (by decide)).1).mpr (by decide),
    by decide⟩

/-- C15: on the empty candidate list `autoSelectFile` returns `-1` for every
filename, season and episode hint. -/
theorem autoSelectFile_empty (lower : Char → Char) (filename season episode : List Char) :
    autoSelectFile lower [] filename season episode = -1 := by
  unfold autoSelectFile
  rw [if_pos (by rfl)]

/-- C16: a result of `autoSelectFile` other than `-1` is the id of a candidate
of the given list, and when the filename hint is empty that candidate is a
video.  It holds for all hints, so in particular for digit-only season and
episode. -/
theorem autoSelectFile_result_is_candidate (lower : Char → Char)
    (fileStats : List TorrentFileStat) (filename season episode : List Char)
    (hres : autoSelectFile lower fileStats filename season episode ≠ -1) :
    ∃ f ∈ fileStats, f.Id = autoSelectFile lower fileStats filename season episode ∧
      (filename = [] → isVideoFile lower f.Path = true) := by
  unfold autoSelectFile at hres ⊢
  split_ifs at hres ⊢ with h1 h2 h3
  · exact absurd rfl hres
  · rcases selectByFilename_mem lower fileStats filename with h | ⟨f, hf, hid⟩
    · exact absurd h hres
    · exact ⟨f, hf, hid, fun hempty => absurd hempty h2⟩
  · rcases selectByPatterns_mem lower fileStats (seasonEpisodePatterns season episode) with
      h | ⟨f, hf, hv, hid⟩
    · exact absurd h hres
    · exact ⟨f, hf, hid, fun _ => hv⟩
  · rcases selectLargestVideoFile_mem lower fileStats with h | ⟨f, hf, hv, hid⟩
    · exact absurd h hres
    · exact ⟨f, hf, hid, fun _ => hv⟩

/-- With the candidates `readme.txt` (id 1) and `Show.S01E05.mkv` (id 2): the
filename hint `README.TXT` gives 1, a candidate that is not a video; the hints
season `1`, episode `5` give 2, and so do no hints at all. -/
theorem autoSelectFile_result_is_candidate_witness :
    (∃ f ∈ [(⟨1, "readme.txt".toList, 9⟩ : TorrentFileStat),
        ⟨2, "Show.S01E05.mkv".toList, 100⟩],
      f.Id = autoSelectFile Char.toLower
        [⟨1, "readme.txt".toList, 9⟩, ⟨2, "Show.S01E05.mkv".toList, 100⟩]
        [] "1".toList "5".toList ∧
      (([] : List Char) = [] → isVideoFile Char.toLower f.Path = true)) ∧
    autoSelectFile Char.toLower
      [⟨1, "readme.txt".toList, 9⟩, ⟨2, "Show.S01E05.mkv".toList, 100⟩]
      "README.TXT".toList [] [] = 1 ∧
    autoSelectFile Char.toLower
      [⟨1, "readme.txt".toList, 9⟩, ⟨2, "Show.S01E05.mkv".toList, 100⟩]
      [] "1".toList "5".toList = 2 ∧
    autoSelectFile Char.toLower
      [⟨1, "readme.txt".toList, 9⟩, ⟨2, "Show.S01E05.mkv".toList, 100⟩] [] [] [] = 2 :=
  ⟨autoSelectFile_result_is_candidate Char.toLower
      [⟨1, "readme.txt".toList, 9⟩, ⟨2, "Show.S01E05.mkv".toList, 100⟩]
      [] "1".toList "5".toList (by decide),
    by decide, by decide, by decide⟩

/-- C19: the patterns match anywhere in the path, so a file labelled with another
episode or season can be selected: for season `1` and episode `5` the single
candidate `Show.S01E050.mkv` is returned, matched by the first pattern, and the
single candidate `Show.11x05.mkv` is returned, matched by the third pattern and
by no other. -/
theorem selectBySeasonEpisode_unanchored :
    selectBySeasonEpisode Char.toLower [⟨7, "Show.S01E050.mkv".toList, 100⟩]
      "1".toList "5".toList = 7 ∧
    eligible Char.toLower "[Ss]01[Ee]05".toList ⟨7, "Show.S01E050.mkv".toList, 100⟩ = true ∧
    selectBySeasonEpisode Char.toLower [⟨8, "Show.11x05.mkv".toList, 100⟩]
      "1".toList "5".toList = 8 ∧
    (seasonEpisodePatterns "1".toList "5".toList).map
        (fun p => eligible Char.toLower p ⟨8, "Show.11x05.mkv".toList, 100⟩)
      = [false, false, true, false, false] := by
  decide

/-! ## Further properties of `play` -/

/-- C18: for every request that reaches index resolution on a handle whose file
list does not have exactly one file (so in particular on one with more than one
file) and whose token parses to the integer `n`: if `n = -1`, `play` aborts with
400; if `n` is neither `-1` nor `-10`, `play` passes exactly `n` to the
transport, whatever the file list is; and if `n = -10` and no candidate id is
negative, an index passed to the transport is the id of a candidate and so is
neither `-1` nor `-10`. -/
theorem play_parsed_token (lower : Char → Char) (env : Env) (c : Request) (tor : Torrent)
    (h : ReachesIndexResolution env c tor) (hmany : tor.Files.length ≠ 1)
    (n : Int) (hn : strconv.Atoi c.indexStr = some n) :
    (n = -1 → play lower env c = [.AbortWithError 400 "\"index\" is wrong"]) ∧
    (n ≠ -1 → n ≠ -10 → play lower env c = [.Stream n]) ∧
    (n = -10 → (∀ f ∈ tor.FileStats, 0 ≤ f.Id) →
      ∀ i ∈ streamCalls (play lower env c),
        i ≠ -1 ∧ i ≠ -10 ∧ ∃ f ∈ tor.FileStats, f.Id = i) := by
  rw [play_eq_playResolve lower env c tor h]
  refine ⟨?_, ?_, ?_⟩
  · intro h1
    simp [playResolve, playIndex, hmany, hn, h1]
  · intro h1 h10
    simp [playResolve, playIndex, hmany, hn, h1, h10]
  · intro h10 hids i hi
    have hres : playResolve lower c tor =
        if autoSelectFile lower tor.FileStats c.filename c.season c.episode = -1 then
          [.AbortWithError 404 "no suitable file found for auto-selection"]
        else playIndex (autoSelectFile lower tor.FileStats c.filename c.season c.episode) := by
      simp [playResolve, hmany, hn, h10]
    rw [hres] at hi
    by_cases hauto : autoSelectFile lower tor.FileStats c.filename c.season c.episode = -1
    · rw [if_pos hauto] at hi
      simp [streamCalls] at hi
    · rw [if_neg hauto] at hi
      have hi2 : i = autoSelectFile lower tor.FileStats c.filename c.season c.episode := by
        simpa [playIndex, hauto, streamCalls] using hi
      rcases autoSelectFile_id lower tor.FileStats c.filename c.season c.episode with
        hneg | ⟨f, hf, hid⟩
      · exact absurd hneg hauto
      · have hpos : 0 ≤ f.Id := hids f hf
        rw [hi2, ← hid]
        refine ⟨?_, ?_, f, hf, rfl⟩
        · intro hcontra
          rw [hcontra] at hpos
          exact absurd hpos (by decide)
        · intro hcontra
          rw [hcontra] at hpos
          exact absurd hpos (by decide)

/-- On a handle with the two files `a.mkv` (id 1) and `b.mkv` (id 2): the token
`-5` streams index `-5`, the token `99` streams index 99, the token `-1` is
answered 400, and the token `-10` without hints streams 2, the id of the larger
video. -/
theorem play_parsed_token_witness :
    play Char.toLower
        (sampleEnv (.ok ⟨"abc".toList⟩)
          (some (sampleTorrent .TorrentWorking true
            [⟨1, "a.mkv".toList, 7⟩, ⟨2, "b.mkv".toList, 9⟩]))
          (.error "unused"))
        ⟨"abc".toList, "-5".toList, [], [], [], false, []⟩ = [.Stream (-5)] ∧
    play Char.toLower
        (sampleEnv (.ok ⟨"abc".toList⟩)
          (some (sampleTorrent .TorrentWorking true
            [⟨1, "a.mkv".toList, 7⟩, ⟨2, "b.mkv".toList, 9⟩]))
          (.error "unused"))
        ⟨"abc".toList, "99".toList, [], [], [], false, []⟩ = [.Stream 99] ∧
    play Char.toLower
        (sampleEnv (.ok ⟨"abc".toList⟩)
          (some (sampleTorrent .TorrentWorking true
            [⟨1, "a.mkv".toList, 7⟩, ⟨2, "b.mkv".toList, 9⟩]))
          (.error "unused"))
        ⟨"abc".toList, "-1".toList, [], [], [], false, []⟩
      = [.AbortWithError 400 "\"index\" is wrong"] ∧
    play Char.toLower
        (sampleEnv (.ok ⟨"abc".toList⟩)
          (some (sampleTorrent .TorrentWorking true
            [⟨1, "a.mkv".toList, 7⟩, ⟨2, "b.mkv".toList, 9⟩]))
          (.error "unused"))
        ⟨"abc".toList, "-10".toList, [], [], [], false, []⟩ = [.Stream 2] :=
  ⟨(play_parsed_token Char.toLower
      (sampleEnv (.ok ⟨"abc".toList⟩)
        (some (sampleTorrent .TorrentWorking true
          [⟨1, "a.mkv".toList, 7⟩, ⟨2, "b.mkv".toList, 9⟩]))
        (.error "unused"))
      ⟨"abc".toList, "-5".toList, [], [], [], false, []⟩
      (sampleTorrent .TorrentWorking true [⟨1, "a.mkv".toList, 7⟩, ⟨2, "b.mkv".toList, 9⟩])
      ⟨by decide, by decide, ⟨"abc".toList⟩, _, rfl, rfl, Or.inr ⟨by decide, rfl⟩, rfl⟩
      (by decide) (-5) (by decide)).2.1 (by decide) (by decide),
   (play_parsed_token Char.toLower
      (sampleEnv (.ok ⟨"abc".toList⟩)
        (some (sampleTorrent .TorrentWorking true
          [⟨1, "a.mkv".toList, 7⟩, ⟨2, "b.mkv".toList, 9⟩]))
        (.error "unused"))
      ⟨"abc".toList, "99".toList, [], [], [], false, []⟩
      (sampleTorrent .TorrentWorking true [⟨1, "a.mkv".toList, 7⟩, ⟨2, "b.mkv".toList, 9⟩])
      ⟨by decide, by decide, ⟨"abc".toList⟩, _, rfl, rfl, Or.inr ⟨by decide, rfl⟩, rfl⟩
      (by decide) 99 (by decide)).2.1 (by decide) (by decide),
   (play_parsed_token Char.toLower
      (sampleEnv (.ok ⟨"abc".toList⟩)
        (some (sampleTorrent .TorrentWorking true
          [⟨1, "a.mkv".toList, 7⟩, ⟨2, "b.mkv".toList, 9⟩]))
        (.error "unused"))
      ⟨"abc".toList, "-1".toList, [], [], [], false, []⟩
      (sampleTorrent .TorrentWorking true [⟨1, "a.mkv".toList, 7⟩, ⟨2, "b.mkv".toList, 9⟩])
      ⟨by decide, by decide, ⟨"abc".toList⟩, _, rfl, rfl, Or.inr ⟨by decide, rfl⟩, rfl⟩
      (by decide) (-1) (by decide)).1 rfl,
   by decide⟩

/-! ### What the compiled patterns match -/

theorem regexp.matchHere_nil (t : List Char) : regexp.matchHere [] t = true := by
  simp [regexp.matchHere]

theorem regexp.matchHere_one (a : regexp.Atom) (r : List regexp.Item) (t : List Char) :
    regexp.matchHere (⟨a, .one⟩ :: r) t = true ↔
      ∃ c t2, t = c :: t2 ∧ a.accepts c = true ∧ regexp.matchHere r t2 = true := by
  cases t with
  | nil => simp [regexp.matchHere]
  | cons c t2 =>
    simp only [regexp.matchHere, Bool.and_eq_true]
    constructor
    · rintro ⟨hc, hm⟩
      exact ⟨c, t2, rfl, hc, hm⟩
    · rintro ⟨x, t3, heq, hx, hm⟩
      obtain ⟨rfl, rfl⟩ := List.cons.inj heq
      exact ⟨hx, hm⟩

theorem regexp.matchHere_opt (a : regexp.Atom) (r : List regexp.Item) (t : List Char) :
    regexp.matchHere (⟨a, .opt⟩ :: r) t = true ↔
      regexp.matchHere r t = true ∨
        ∃ c t2, t = c :: t2 ∧ a.accepts c = true ∧ regexp.matchHere r t2 = true := by
  cases t with
  | nil => simp [regexp.matchHere]
  | cons c t2 =>
    simp only [regexp.matchHere, Bool.or_eq_true, Bool.and_eq_true]
    constructor
    · rintro (hm | ⟨hc, hm⟩)
      · exact Or.inl hm
      · exact Or.inr ⟨c, t2, rfl, hc, hm⟩
    · rintro (hm | ⟨x, t3, heq, hx, hm⟩)
      · exact Or.inl hm
      · obtain ⟨rfl, rfl⟩ := List.cons.inj heq
        exact Or.inr ⟨hx, hm⟩

theorem regexp.starLoop_mono (p : Char → Bool) (k1 k2 : List Char → Bool)
    (h : ∀ t, k1 t = true → k2 t = true) :
    ∀ t, regexp.starLoop p k1 t = true → regexp.starLoop p k2 t = true := by
  intro t
  induction t with
  | nil => exact h []
  | cons c cs ih =>
    simp only [regexp.starLoop, Bool.or_eq_true, Bool.and_eq_true]
    rintro (hk | ⟨hp, hs⟩)
    · exact Or.inl (h _ hk)
    · exact Or.inr ⟨hp, ih hs⟩

theorem regexp.starLoop_append (p : Char → Bool) (k : List Char → Bool)
    (mid t : List Char) (hmid : ∀ c ∈ mid, p c = true) (h : k t = true) :
    regexp.starLoop p k (mid ++ t) = true := by
  induction mid with
  | nil =>
    cases t with
    | nil => exact h
    | cons c cs => simp [regexp.starLoop, h]
  | cons c cs ih =>
    have hc : p c = true := hmid c (List.mem_cons_self c cs)
    have hcs : ∀ x ∈ cs, p x = true := fun x hx => hmid x (List.mem_cons_of_mem c hx)
    simp [regexp.starLoop, hc, ih hcs]

theorem regexp.matchHere_star (a : regexp.Atom) (r : List regexp.Item) (mid t : List Char)
    (hmid : ∀ c ∈ mid, a.accepts c = true) (h : regexp.matchHere r t = true) :
    regexp.matchHere (⟨a, .star⟩ :: r) (mid ++ t) = true := by
  simp only [regexp.matchHere]
  exact regexp.starLoop_append a.accepts (regexp.matchHere r) mid t hmid h

theorem regexp.matchHere_literals (cs : List Char) (r : List regexp.Item) (t : List Char) :
    regexp.matchHere (literals cs ++ r) t = true ↔
      ∃ t2, t = cs ++ t2 ∧ regexp.matchHere r t2 = true := by
  induction cs generalizing t with
  | nil => simp [literals]
  | cons c cs ih =>
    have hl : literals (c :: cs) ++ r = ⟨.lit c, .one⟩ :: (literals cs ++ r) := rfl
    rw [hl, regexp.matchHere_one]
    constructor
    · rintro ⟨x, t2, rfl, hx, hm⟩
      obtain ⟨t3, rfl, hm3⟩ := (ih t2).mp hm
      have hxc : x = c := by simpa [regexp.Atom.accepts] using hx
      exact ⟨t3, by rw [hxc]; rfl, hm3⟩
    · rintro ⟨t2, rfl, hm⟩
      exact ⟨c, cs ++ t2, rfl, by simp [regexp.Atom.accepts], (ih _).mpr ⟨t2, rfl, hm⟩⟩

theorem regexp.MatchString_iff (re : List regexp.Item) (s : List Char) :
    regexp.MatchString re s = true ↔
      ∃ a t, s = a ++ t ∧ regexp.matchHere re t = true := by
  induction s with
  | nil =>
    simp only [regexp.MatchString]
    constructor
    · intro h
      exact ⟨[], [], rfl, h⟩
    · rintro ⟨a, t, hs, hm⟩
      have ht : t = [] := (List.append_eq_nil.mp hs.symm).2
      rw [ht] at hm
      exact hm
  | cons c cs ih =>
    simp only [regexp.MatchString, Bool.or_eq_true]
    constructor
    · rintro (h | h)
      · exact ⟨[], c :: cs, rfl, h⟩
      · obtain ⟨a, t, hs, hm⟩ := ih.mp h
        exact ⟨c :: a, t, by rw [hs]; rfl, hm⟩
    · rintro ⟨a, t, hs, hm⟩
      cases a with
      | nil =>
        left
        rw [List.nil_append] at hs
        rw [hs]
        exact hm
      | cons x a2 =>
        right
        rw [List.cons_append, List.cons.injEq] at hs
        exact ih.mpr ⟨a2, t, hs.2, hm⟩

theorem regexp.MatchString_literals (cs s : List Char) :
    regexp.MatchString (literals cs) s = true ↔ cs <:+: s := by
  rw [regexp.MatchString_iff]
  constructor
  · rintro ⟨a, t, hs, hm⟩
    have hm2 : regexp.matchHere (literals cs ++ []) t = true := by simpa using hm
    obtain ⟨t2, ht, _⟩ := (regexp.matchHere_literals cs [] t).mp hm2
    exact ⟨a, t2, by rw [hs, ht, List.append_assoc]⟩
  · rintro ⟨a, t2, hs⟩
    refine ⟨a, cs ++ t2, by rw [← hs, List.append_assoc], ?_⟩
    have := (regexp.matchHere_literals cs [] (cs ++ t2)).mpr ⟨t2, rfl, regexp.matchHere_nil t2⟩
    simpa using this

theorem regexp.matchHere_mono_append (xs r1 r2 : List regexp.Item)
    (h : ∀ t, regexp.matchHere r1 t = true → regexp.matchHere r2 t = true) :
    ∀ t, regexp.matchHere (xs ++ r1) t = true → regexp.matchHere (xs ++ r2) t = true := by
  induction xs with
  | nil => exact h
  | cons x xs ih =>
    obtain ⟨a, q⟩ := x
    intro t
    cases q with
    | one =>
      rw [List.cons_append, List.cons_append, regexp.matchHere_one, regexp.matchHere_one]
      rintro ⟨c, t2, ht, hc, hm⟩
      exact ⟨c, t2, ht, hc, ih t2 hm⟩
    | opt =>
      rw [List.cons_append, List.cons_append, regexp.matchHere_opt, regexp.matchHere_opt]
      rintro (hm | ⟨c, t2, ht, hc, hm⟩)
      · exact Or.inl (ih t hm)
      · exact Or.inr ⟨c, t2, ht, hc, ih t2 hm⟩
    | star =>
      simp only [List.cons_append, regexp.matchHere]
      exact regexp.starLoop_mono a.accepts _ _ ih t

theorem regexp.MatchString_mono (re1 re2 : List regexp.Item)
    (h : ∀ t, regexp.matchHere re1 t = true → regexp.matchHere re2 t = true)
    (s : List Char) (hm : regexp.MatchString re1 s = true) :
    regexp.MatchString re2 s = true := by
  rw [regexp.MatchString_iff] at hm ⊢
  obtain ⟨a, t, hs, hmt⟩ := hm
  exact ⟨a, t, hs, h t hmt⟩

theorem regexp.MatchString_drop_one (a : regexp.Atom) (r : List regexp.Item) (s : List Char)
    (hm : regexp.MatchString (⟨a, .one⟩ :: r) s = true) :
    regexp.MatchString r s = true := by
  rw [regexp.MatchString_iff] at hm ⊢
  obtain ⟨pre, t, hs, hmt⟩ := hm
  obtain ⟨c, t2, ht, _, hm2⟩ := (regexp.matchHere_one a r t).mp hmt
  exact ⟨pre ++ [c], t2, by rw [hs, ht]; simp, hm2⟩

theorem patterns_compile_each (season episode : List Char)
    (hs : digitsOnly season = true) (he : digitsOnly episode = true)
    (p1 p2 p3 p4 p5 : List Char)
    (hp : seasonEpisodePatterns season episode = [p1, p2, p3, p4, p5]) :
    ∃ c1 c2 c3 c4 c5, compiledPatterns season episode = [c1, c2, c3, c4, c5] ∧
      regexp.Compile p1 = some c1 ∧ regexp.Compile p2 = some c2 ∧
      regexp.Compile p3 = some c3 ∧ regexp.Compile p4 = some c4 ∧
      regexp.Compile p5 = some c5 := by
  have hc := seasonEpisodePatterns_compile season episode hs he
  rw [hp] at hc
  simp only [compiledPatterns, List.map_cons, List.map_nil, List.cons.injEq, and_true] at hc
  obtain ⟨h1, h2, h3, h4, h5⟩ := hc
  exact ⟨_, _, _, _, _, rfl, h1, h2, h3, h4, h5⟩

theorem pattern3_contains (season episode : List Char)
    (hs : digitsOnly season = true) (he : digitsOnly episode = true)
    (p1 p2 p3 p4 p5 : List Char)
    (hp : seasonEpisodePatterns season episode = [p1, p2, p3, p4, p5]) (path : List Char) :
    patternMatches p3 path = true ↔
      (season ++ "x".toList ++ padNum episode) <:+: path := by
  obtain ⟨c1, c2, c3, c4, c5, hc, _, _, h3, _, _⟩ :=
    patterns_compile_each season episode hs he p1 p2 p3 p4 p5 hp
  simp only [compiledPatterns, List.cons.injEq, and_true] at hc
  obtain ⟨_, _, hc3, _, _⟩ := hc
  have hlit : c3 = literals (season ++ "x".toList ++ padNum episode) := by
    rw [← hc3]
    simp [literals]
  simp only [patternMatches, h3, hlit]
  exact regexp.MatchString_literals _ path

/-- C12: for a digit-only season hint of length at least 2 and a digit-only
episode hint, the patterns 3 and 4 are the same string, the season followed by
`x` and the padded episode; and when no video candidate matches the patterns 1
and 2 and exactly one video candidate has a path that contains that string,
`selectBySeasonEpisode` returns the id of that candidate. -/
theorem selectBySeasonEpisode_season_x_episode (lower : Char → Char)
    (season episode : List Char)
    (hs : digitsOnly season = true) (he : digitsOnly episode = true)
    (hlen : 2 ≤ len season)
    (p1 p2 p3 p4 p5 : List Char)
    (hp : seasonEpisodePatterns season episode = [p1, p2, p3, p4, p5])
    (pre : List TorrentFileStat) (file : TorrentFileStat) (post : List TorrentFileStat)
    (hno : ∀ f ∈ pre ++ file :: post,
      eligible lower p1 f = false ∧ eligible lower p2 f = false)
    (hfile : isVideoFile lower file.Path = true ∧
      (season ++ "x".toList ++ padNum episode) <:+: file.Path)
    (hothers : ∀ f ∈ pre ++ post, ¬ (isVideoFile lower f.Path = true ∧
      (season ++ "x".toList ++ padNum episode) <:+: f.Path)) :
    p3 = p4 ∧ p3 = season ++ "x".toList ++ padNum episode ∧
      selectBySeasonEpisode lower (pre ++ file :: post) season episode = file.Id := by
  have hpad : padNum season = season := by
    unfold padNum
    rw [if_neg (by omega)]
  have hp' := hp
  simp only [seasonEpisodePatterns, List.cons.injEq, and_true] at hp'
  obtain ⟨_, _, h3, h4, _⟩ := hp'
  have h34 : p3 = p4 := by rw [← h3, ← h4, hpad]
  have hcontains := pattern3_contains season episode hs he p1 p2 p3 p4 p5 hp
  have helig : ∀ f : TorrentFileStat, eligible lower p3 f = true ↔
      (isVideoFile lower f.Path = true ∧
        (season ++ "x".toList ++ padNum episode) <:+: f.Path) := by
    intro f
    rw [eligible, Bool.and_eq_true, hcontains]
  refine ⟨h34, h3.symm, ?_⟩
  have hwin := selectByPatterns_winning lower (pre ++ file :: post) [p1, p2] p3 [p4, p5]
    (by
      intro q hq f hf
      rcases List.mem_cons.mp hq with rfl | hq2
      · exact (hno f hf).1
      · rw [List.mem_singleton.mp hq2]
        exact (hno f hf).2)
    ⟨file, by simp, (helig file).mpr hfile⟩
  obtain ⟨chosen, hfl, hres⟩ := hwin
  have hsel : selectBySeasonEpisode lower (pre ++ file :: post) season episode = chosen.Id := by
    rw [selectBySeasonEpisode_eq_selectByPatterns, hp]
    exact hres
  obtain ⟨hmem, hel⟩ := hfl.mem
  have hchosen : chosen = file := by
    rcases List.mem_append.mp hmem with h | h
    · exact absurd ((helig chosen).mp hel) (hothers chosen (List.mem_append_left _ h))
    · rcases List.mem_cons.mp h with h | h
      · exact h
      · exact absurd ((helig chosen).mp hel) (hothers chosen (List.mem_append_right _ h))
  rw [hsel, hchosen]

/-- Season `10`, episode `2`: the patterns 3 and 4 are both `10x02`, and between
`Show.9x02.avi` (id 1) and `Show.10x02.avi` (id 2) the result is 2. -/
theorem selectBySeasonEpisode_season_x_episode_witness :
    ("10x02".toList = "10x02".toList ∧
      "10x02".toList = "10".toList ++ "x".toList ++ padNum "2".toList ∧
      selectBySeasonEpisode Char.toLower
        ([⟨1, "Show.9x02.avi".toList, 500⟩] ++ ⟨2, "Show.10x02.avi".toList, 100⟩ :: [])
        "10".toList "2".toList = (2 : Int)) ∧
    selectBySeasonEpisode Char.toLower [⟨2, "Show.10x02.avi".toList, 100⟩]
      "10".toList "2".toList = 2 :=
  ⟨selectBySeasonEpisode_season_x_episode Char.toLower "10".toList "2".toList
      (by decide) (by decide) (by decide)
      "[Ss]10[Ee]02".toList "[Ss]10\\.?[Ee]02".toList "10x02".toList "10x02".toList
      "[Ss]eason[.\\s]?10.*[Ee]pisode[.\\s]?2".toList (by decide)
      [⟨1, "Show.9x02.avi".toList, 500⟩] ⟨2, "Show.10x02.avi".toList, 100⟩ []
      (by decide) (by decide) (by decide),
    by decide⟩

theorem regexp.matchHere_optSep (r : List regexp.Item) (sep t : List Char)
    (hsep : IsOptSeparator sep) (h : regexp.matchHere r t = true) :
    regexp.matchHere (⟨.cls ('.' :: regexp.whitespace), .opt⟩ :: r) (sep ++ t) = true := by
  rw [regexp.matchHere_opt]
  rcases hsep with rfl | ⟨c, hc, rfl⟩
  · exact Or.inl h
  · right
    refine ⟨c, t, rfl, ?_, h⟩
    simp only [regexp.Atom.accepts, List.contains_iff_exists_mem_beq]
    exact ⟨c, hc, by simp⟩

theorem pattern5_matches_verbose (season episode : List Char)
    (hs : digitsOnly season = true) (he : digitsOnly episode = true)
    (p1 p2 p3 p4 p5 : List Char)
    (hp : seasonEpisodePatterns season episode = [p1, p2, p3, p4, p5]) (path : List Char)
    (hform : HasVerboseForm season episode path) :
    patternMatches p5 path = true := by
  obtain ⟨c1, c2, c3, c4, c5, hc, _, _, _, _, h5⟩ :=
    patterns_compile_each season episode hs he p1 p2 p3 p4 p5 hp
  simp only [compiledPatterns, List.cons.injEq, and_true] at hc
  obtain ⟨_, _, _, _, hc5⟩ := hc
  obtain ⟨before, s0, sep1, mid, e0, sep2, after, hpath, hs0, he0, hsep1, hsep2, hmid⟩ := hform
  simp only [patternMatches, h5, ← hc5]
  rw [regexp.MatchString_iff]
  refine ⟨before, s0 :: ("eason".toList ++ (sep1 ++ (season ++ (mid ++
    (e0 :: ("pisode".toList ++ (sep2 ++ (episode ++ after)))))))), ?_, ?_⟩
  · rw [hpath]
    simp only [List.append_assoc, List.cons_append]
  · rw [regexp.matchHere_one]
    refine ⟨s0, _, rfl, ?_, ?_⟩
    · rcases hs0 with rfl | rfl <;> decide
    rw [regexp.matchHere_literals]
    refine ⟨_, rfl, ?_⟩
    apply regexp.matchHere_optSep _ _ _ hsep1
    rw [regexp.matchHere_literals]
    refine ⟨_, rfl, ?_⟩
    apply regexp.matchHere_star
    · intro c hc
      simpa [regexp.Atom.accepts] using hmid c hc
    rw [regexp.matchHere_one]
    refine ⟨e0, _, rfl, ?_, ?_⟩
    · rcases he0 with rfl | rfl <;> decide
    rw [regexp.matchHere_literals]
    refine ⟨_, rfl, ?_⟩
    apply regexp.matchHere_optSep _ _ _ hsep2
    have hlast := (regexp.matchHere_literals episode [] (episode ++ after)).mpr
      ⟨after, rfl, regexp.matchHere_nil after⟩
    simpa using hlast

/-- C11, as amended: the fifth pattern accepts either case only in the first
letter of `Season` and of `Episode`.  For digit-only hints and a candidate list
in which no video candidate matches the patterns 1 to 4, a video candidate whose
path contains `Season` or `season`, an optional separator (a dot or a white-space
character), the season hint, any characters other than a newline, `Episode` or
`episode`, an optional separator and the episode hint is eligible for the fifth
pattern; the result is then the id of a candidate eligible for that pattern, and
it is not `-1` when no candidate id is `-1`. -/
theorem selectBySeasonEpisode_verbose (lower : Char → Char)
    (fileStats : List TorrentFileStat) (season episode : List Char)
    (hs : digitsOnly season = true) (he : digitsOnly episode = true)
    (p1 p2 p3 p4 p5 : List Char)
    (hp : seasonEpisodePatterns season episode = [p1, p2, p3, p4, p5])
    (hno : ∀ f ∈ fileStats, eligible lower p1 f = false ∧ eligible lower p2 f = false ∧
      eligible lower p3 f = false ∧ eligible lower p4 f = false)
    (file : TorrentFileStat) (hfile : file ∈ fileStats)
    (hvideo : isVideoFile lower file.Path = true)
    (hform : HasVerboseForm season episode file.Path) :
    eligible lower p5 file = true ∧
    (∃ chosen ∈ fileStats, eligible lower p5 chosen = true ∧
      selectBySeasonEpisode lower fileStats season episode = chosen.Id) ∧
    ((∀ f ∈ fileStats, f.Id ≠ -1) →
      selectBySeasonEpisode lower fileStats season episode ≠ -1) := by
  have hel : eligible lower p5 file = true := by
    rw [eligible, Bool.and_eq_true]
    exact ⟨hvideo, pattern5_matches_verbose season episode hs he p1 p2 p3 p4 p5 hp _ hform⟩
  have hwin := selectByPatterns_winning lower fileStats [p1, p2, p3, p4] p5 []
    (by
      intro q hq f hf
      obtain ⟨h1, h2, h3, h4⟩ := hno f hf
      simp only [List.mem_cons, List.mem_singleton, List.not_mem_nil, or_false] at hq
      rcases hq with rfl | rfl | rfl | rfl
      · exact h1
      · exact h2
      · exact h3
      · exact h4)
    ⟨file, hfile, hel⟩
  obtain ⟨chosen, hfl, hres⟩ := hwin
  have hsel : selectBySeasonEpisode lower fileStats season episode = chosen.Id := by
    rw [selectBySeasonEpisode_eq_selectByPatterns, hp]
    exact hres
  refine ⟨hel, ⟨chosen, hfl.mem.1, hfl.mem.2, hsel⟩, ?_⟩
  intro hid
  rw [hsel]
  exact hid chosen hfl.mem.1

/-- Season `1`, episode `5` and the single candidate `Season 1 Episode 5.mkv`
(id 7): the path has the verbose form and the result is 7; so it is for
`season.1 - episode.5.mkv`. -/
theorem selectBySeasonEpisode_verbose_witness :
    eligible Char.toLower "[Ss]eason[.\\s]?1.*[Ee]pisode[.\\s]?5".toList
      ⟨7, "Season 1 Episode 5.mkv".toList, 100⟩ = true ∧
    selectBySeasonEpisode Char.toLower [⟨7, "Season 1 Episode 5.mkv".toList, 100⟩]
      "1".toList "5".toList = 7 ∧
    selectBySeasonEpisode Char.toLower [⟨7, "season.1 - episode.5.mkv".toList, 100⟩]
      "1".toList "5".toList = 7 :=
  ⟨(selectBySeasonEpisode_verbose Char.toLower [⟨7, "Season 1 Episode 5.mkv".toList, 100⟩]
      "1".toList "5".toList (by decide) (by decide)
      "[Ss]01[Ee]05".toList "[Ss]01\\.?[Ee]05".toList "1x05".toList "01x05".toList
      "[Ss]eason[.\\s]?1.*[Ee]pisode[.\\s]?5".toList (by decide) (by decide)
      ⟨7, "Season 1 Episode 5.mkv".toList, 100⟩ (by simp) (by decide)
      ⟨[], 'S', [' '], [' '], 'E', [' '], ".mkv".toList, by decide, Or.inl rfl, Or.inl rfl,
        Or.inr ⟨' ', by decide, rfl⟩, Or.inr ⟨' ', by decide, rfl⟩, by decide⟩).1,
    by decide, by decide⟩

/-- The claim C11 as stated fails for a word in capitals: for season `1` and
episode `5` the single video candidate `SEASON 1 EPISODE 5.mkv` (id 7) matches
none of the five patterns and the result is `-1`. -/
theorem selectBySeasonEpisode_verbose_counterexample :
    isVideoFile Char.toLower "SEASON 1 EPISODE 5.mkv".toList = true ∧
    selectBySeasonEpisode Char.toLower [⟨7, "SEASON 1 EPISODE 5.mkv".toList, 100⟩]
      "1".toList "5".toList = -1 := by
  decide

theorem pattern1_sub_pattern2 (season episode : List Char)
    (hs : digitsOnly season = true) (he : digitsOnly episode = true)
    (p1 p2 p3 p4 p5 : List Char)
    (hp : seasonEpisodePatterns season episode = [p1, p2, p3, p4, p5]) (path : List Char)
    (h : patternMatches p1 path = true) : patternMatches p2 path = true := by
  obtain ⟨c1, c2, c3, c4, c5, hc, h1, h2, _, _, _⟩ :=
    patterns_compile_each season episode hs he p1 p2 p3 p4 p5 hp
  simp only [compiledPatterns, List.cons.injEq, and_true] at hc
  obtain ⟨hc1, hc2, _, _, _⟩ := hc
  simp only [patternMatches, h1, h2, ← hc1, ← hc2] at h ⊢
  refine regexp.MatchString_mono _ _ ?_ path h
  have hmono := regexp.matchHere_mono_append
    (⟨.cls ['S', 's'], .one⟩ :: literals (padNum season))
    (⟨.cls ['E', 'e'], .one⟩ :: literals (padNum episode))
    (⟨.lit '.', .opt⟩ :: ⟨.cls ['E', 'e'], .one⟩ :: literals (padNum episode))
    (fun t ht => (regexp.matchHere_opt _ _ t).mpr (Or.inl ht))
  simpa using hmono

theorem pattern4_sub_pattern3 (season episode : List Char)
    (hs : digitsOnly season = true) (he : digitsOnly episode = true)
    (p1 p2 p3 p4 p5 : List Char)
    (hp : seasonEpisodePatterns season episode = [p1, p2, p3, p4, p5]) (path : List Char)
    (h : patternMatches p4 path = true) : patternMatches p3 path = true := by
  obtain ⟨c1, c2, c3, c4, c5, hc, _, _, h3, h4, _⟩ :=
    patterns_compile_each season episode hs he p1 p2 p3 p4 p5 hp
  simp only [compiledPatterns, List.cons.injEq, and_true] at hc
  obtain ⟨_, _, hc3, hc4, _⟩ := hc
  simp only [patternMatches, h3, h4, ← hc3, ← hc4] at h ⊢
  unfold padNum at h
  split at h
  · exact regexp.MatchString_drop_one (.lit '0') _ path h
  · exact h

theorem searchPatterns_cons_congr (lower : Char → Char) (fileStats : List TorrentFileStat)
    (q : List Char) (l1 l2 : List (List Char))
    (h : searchPatterns lower fileStats l1 [] = searchPatterns lower fileStats l2 []) :
    searchPatterns lower fileStats (q :: l1) []
      = searchPatterns lower fileStats (q :: l2) [] := by
  rw [searchPatterns_cons, searchPatterns_cons, h]

theorem searchPatterns_skip_empty (lower : Char → Char) (fileStats : List TorrentFileStat)
    (p : List Char) (rest : List (List Char))
    (h : ∀ f ∈ fileStats, eligible lower p f = false) :
    searchPatterns lower fileStats (p :: rest) []
      = searchPatterns lower fileStats rest [] := by
  rw [searchPatterns_cons]
  have hnil : fileStats.filter (eligible lower p) = [] := by
    rw [List.filter_eq_nil_iff]
    intro f hf
    simp [h f hf]
  rw [if_pos hnil]

theorem searchPatterns_skip_sub (lower : Char → Char) (fileStats : List TorrentFileStat)
    (q p : List Char) (rest : List (List Char))
    (hsub : ∀ f ∈ fileStats, eligible lower p f = true → eligible lower q f = true) :
    searchPatterns lower fileStats (q :: p :: rest) []
      = searchPatterns lower fileStats (q :: rest) [] := by
  rw [searchPatterns_cons, searchPatterns_cons lower fileStats q rest]
  by_cases hq : fileStats.filter (eligible lower q) = []
  · rw [if_pos hq, if_pos hq]
    apply searchPatterns_skip_empty
    intro f hf
    cases hel : eligible lower p f with
    | false => rfl
    | true =>
      have hmem : f ∈ fileStats.filter (eligible lower q) :=
        List.mem_filter.mpr ⟨hf, hsub f hf hel⟩
      rw [hq] at hmem
      simp at hmem
  · rw [if_neg hq, if_neg hq]

/-- C17, as amended: for digit-only hints every path matched by pattern 1 is
matched by pattern 2 and every path matched by pattern 4 is matched by pattern
3.  Pattern 4 is redundant: `selectBySeasonEpisode` returns the same result as
the variant that tries only the patterns 1, 2, 3 and 5.  Pattern 1 is not:
the result is that of the variant that tries only the patterns 2, 3 and 5 when
no video candidate matches pattern 1. -/
theorem selectBySeasonEpisode_redundant_patterns (lower : Char → Char)
    (fileStats : List TorrentFileStat) (season episode : List Char)
    (hs : digitsOnly season = true) (he : digitsOnly episode = true)
    (p1 p2 p3 p4 p5 : List Char)
    (hp : seasonEpisodePatterns season episode = [p1, p2, p3, p4, p5]) :
    (∀ path, patternMatches p1 path = true → patternMatches p2 path = true) ∧
    (∀ path, patternMatches p4 path = true → patternMatches p3 path = true) ∧
    selectBySeasonEpisode lower fileStats season episode
      = selectBySeasonEpisode1235 lower fileStats season episode ∧
    ((∀ f ∈ fileStats, eligible lower p1 f = false) →
      selectBySeasonEpisode lower fileStats season episode
        = selectBySeasonEpisode235 lower fileStats season episode) := by
  have h12 := pattern1_sub_pattern2 season episode hs he p1 p2 p3 p4 p5 hp
  have h43 := pattern4_sub_pattern3 season episode hs he p1 p2 p3 p4 p5 hp
  have hp' := hp
  simp only [seasonEpisodePatterns, List.cons.injEq, and_true] at hp'
  obtain ⟨e1, e2, e3, e4, e5⟩ := hp'
  have h1235 : patterns1235 season episode = [p1, p2, p3, p5] := by
    simp only [patterns1235, e1, e2, e3, e5]
  have h235 : patterns235 season episode = [p2, p3, p5] := by
    simp only [patterns235, e2, e3, e5]
  have hsub : ∀ f ∈ fileStats, eligible lower p4 f = true → eligible lower p3 f = true := by
    intro f _ hel
    simp only [eligible, Bool.and_eq_true] at hel ⊢
    exact ⟨hel.1, h43 f.Path hel.2⟩
  have hsearch : searchPatterns lower fileStats [p1, p2, p3, p4, p5] []
      = searchPatterns lower fileStats [p1, p2, p3, p5] [] := by
    apply searchPatterns_cons_congr
    apply searchPatterns_cons_congr
    exact searchPatterns_skip_sub lower fileStats p3 p4 [p5] hsub
  refine ⟨h12, h43, ?_, ?_⟩
  · rw [selectBySeasonEpisode_eq_selectByPatterns, selectBySeasonEpisode1235, h1235, hp]
    unfold selectByPatterns
    rw [hsearch]
  · intro hno1
    rw [selectBySeasonEpisode_eq_selectByPatterns, selectBySeasonEpisode235, h235, hp]
    unfold selectByPatterns
    rw [hsearch, searchPatterns_skip_empty lower fileStats p1 [p2, p3, p5] hno1]

/-- Season `1`, episode `5` and the candidates `Show.S01E05.mkv` (10 bytes,
id 1), `Show.1x05.mkv` (500 bytes, id 2) and `Show.01x05.mkv` (900 bytes, id 3):
the full selection and the variant without pattern 4 both give 1; without the
first candidate the full selection and the variant with the patterns 2, 3 and 5
both give 3, the larger of the two matches of pattern 3. -/
theorem selectBySeasonEpisode_redundant_patterns_witness :
    selectBySeasonEpisode Char.toLower
        [⟨1, "Show.S01E05.mkv".toList, 10⟩, ⟨2, "Show.1x05.mkv".toList, 500⟩,
          ⟨3, "Show.01x05.mkv".toList, 900⟩] "1".toList "5".toList
      = selectBySeasonEpisode1235 Char.toLower
        [⟨1, "Show.S01E05.mkv".toList, 10⟩, ⟨2, "Show.1x05.mkv".toList, 500⟩,
          ⟨3, "Show.01x05.mkv".toList, 900⟩] "1".toList "5".toList ∧
    selectBySeasonEpisode Char.toLower
        [⟨1, "Show.S01E05.mkv".toList, 10⟩, ⟨2, "Show.1x05.mkv".toList, 500⟩,
          ⟨3, "Show.01x05.mkv".toList, 900⟩] "1".toList "5".toList = 1 ∧
    selectBySeasonEpisode Char.toLower
        [⟨2, "Show.1x05.mkv".toList, 500⟩, ⟨3, "Show.01x05.mkv".toList, 900⟩]
        "1".toList "5".toList
      = selectBySeasonEpisode235 Char.toLower
        [⟨2, "Show.1x05.mkv".toList, 500⟩, ⟨3, "Show.01x05.mkv".toList, 900⟩]
        "1".toList "5".toList ∧
    selectBySeasonEpisode Char.toLower
        [⟨2, "Show.1x05.mkv".toList, 500⟩, ⟨3, "Show.01x05.mkv".toList, 900⟩]
        "1".toList "5".toList = 3 :=
  ⟨(selectBySeasonEpisode_redundant_patterns Char.toLower
      [⟨1, "Show.S01E05.mkv".toList, 10⟩, ⟨2, "Show.1x05.mkv".toList, 500⟩,
        ⟨3, "Show.01x05.mkv".toList, 900⟩] "1".toList "5".toList (by decide) (by decide)
      "[Ss]01[Ee]05".toList "[Ss]01\\.?[Ee]05".toList "1x05".toList "01x05".toList
      "[Ss]eason[.\\s]?1.*[Ee]pisode[.\\s]?5".toList (by decide)).2.2.1,
    by decide,
    (selectBySeasonEpisode_redundant_patterns Char.toLower
      [⟨2, "Show.1x05.mkv".toList, 500⟩, ⟨3, "Show.01x05.mkv".toList, 900⟩]
      "1".toList "5".toList (by decide) (by decide)
      "[Ss]01[Ee]05".toList "[Ss]01\\.?[Ee]05".toList "1x05".toList "01x05".toList
      "[Ss]eason[.\\s]?1.*[Ee]pisode[.\\s]?5".toList (by decide)).2.2.2 (by decide),
    by decide⟩

/-- The claim C17 as stated fails because pattern 1 is not redundant: for season
`1` and episode `5` and the candidates `Show.S01E05.mkv` (10 bytes, id 1) and
`Show.S01.E05.mkv` (100 bytes, id 2), `selectBySeasonEpisode` returns 1, the only
match of pattern 1, while the variant that tries only the patterns 2, 3 and 5
returns 2, the larger of the two matches of pattern 2. -/
theorem selectBySeasonEpisode_reduced_counterexample :
    selectBySeasonEpisode Char.toLower
        [⟨1, "Show.S01E05.mkv".toList, 10⟩, ⟨2, "Show.S01.E05.mkv".toList, 100⟩]
        "1".toList "5".toList = 1 ∧
    selectBySeasonEpisode235 Char.toLower
        [⟨1, "Show.S01E05.mkv".toList, 10⟩, ⟨2, "Show.S01.E05.mkv".toList, 100⟩]
        "1".toList "5".toList = 2 := by
  decide

/-! ## Properties of `isVideoFile` -/

theorem filepath.extLoop_map (lower : Char → Char) (hk : KeepsPathMarks lower)
    (rest acc : List Char) :
    filepath.extLoop (rest.map lower) (acc.map lower)
      = (filepath.extLoop rest acc).map lower := by
  induction rest generalizing acc with
  | nil => rfl
  | cons c cs ih =>
    obtain ⟨hdot, hsep⟩ := hk c
    simp only [List.map_cons, filepath.extLoop]
    by_cases h1 : c = '/'
    · rw [if_pos h1, if_pos (hsep.mpr h1)]
      rfl
    · rw [if_neg h1, if_neg (fun h => h1 (hsep.mp h))]
      by_cases h2 : c = '.'
      · rw [if_pos h2, if_pos (hdot.mpr h2)]
        have hd : lower '.' = '.' := ((hk '.').1).mpr rfl
        simp [hd]
      · rw [if_neg h2, if_neg (fun h => h2 (hdot.mp h))]
        have := ih (c :: acc)
        simpa using this

theorem filepath.Ext_map (lower : Char → Char) (hk : KeepsPathMarks lower)
    (path : List Char) :
    filepath.Ext (path.map lower) = (filepath.Ext path).map lower := by
  unfold filepath.Ext
  rw [← List.map_reverse]
  exact filepath.extLoop_map lower hk path.reverse []

theorem filepath.extLoop_plain (seg rest acc : List Char)
    (hseg : ∀ c ∈ seg, c ≠ '.' ∧ c ≠ '/') :
    filepath.extLoop (seg ++ rest) acc = filepath.extLoop rest (seg.reverse ++ acc) := by
  induction seg generalizing acc with
  | nil => rfl
  | cons c cs ih =>
    obtain ⟨h1, h2⟩ := hseg c (List.mem_cons_self c cs)
    have hrec := ih (c :: acc) (fun x hx => hseg x (List.mem_cons_of_mem c hx))
    simp only [List.cons_append, filepath.extLoop, if_neg h1, if_neg h2]
    simpa using hrec

theorem filepath.Ext_no_dot (dir seg : List Char)
    (hseg : ∀ c ∈ seg, c ≠ '.' ∧ c ≠ '/')
    (hdir : dir = [] ∨ ∃ d, dir = d ++ ['/']) :
    filepath.Ext (dir ++ seg) = [] := by
  unfold filepath.Ext
  rw [List.reverse_append,
    filepath.extLoop_plain seg.reverse dir.reverse []
      (fun c hc => hseg c (List.mem_reverse.mp hc))]
  rcases hdir with rfl | ⟨d, rfl⟩
  · rfl
  · simp [filepath.extLoop]

theorem charToNat_ofNat_small (n : Nat) (h : n < 200) : (Char.ofNat n).toNat = n := by
  have hv : n.isValidChar := Or.inl (by omega)
  simp only [Char.ofNat, hv, Char.toNat, Char.ofNatAux, dif_pos]
  show (BitVec.ofNatLt n _).toNat = n
  simp

theorem charToLower_eq_plain (d : Char) (hd : d.toNat < 65) (c : Char) :
    c.toLower = d ↔ c = d := by
  unfold Char.toLower
  by_cases h : c.toNat ≥ 65 ∧ c.toNat ≤ 90
  · simp only [h, and_self, if_true]
    constructor
    · intro heq
      exfalso
      have h1 : (Char.ofNat (c.toNat + 32)).toNat = d.toNat := by rw [heq]
      rw [charToNat_ofNat_small _ (by omega)] at h1
      omega
    · intro heq
      exfalso
      rw [heq] at h
      omega
  · simp only [h, if_false]

theorem keepsPathMarks_toLower : KeepsPathMarks Char.toLower :=
  fun c => ⟨charToLower_eq_plain '.' (by decide) c, charToLower_eq_plain '/' (by decide) c⟩

/-- C14: `isVideoFile` is a predicate on every string, true if and only if the
lowercased extension of the path (the suffix that starts at the last dot of the
part of the path after the last separator) is one of the fourteen extensions of
the table.  For a case table that maps only the dot to the dot and only the
separator to the separator, two paths with the same lowercase form, that is two
paths that differ in letter case only, get the same answer.  A path whose part
after the last separator has no dot is not a video. -/
theorem isVideoFile_case_insensitive (lower : Char → Char) :
    (∀ path, isVideoFile lower path = true ↔
      strings.ToLower lower (filepath.Ext path) ∈
        [".mp4".toList, ".mkv".toList, ".avi".toList, ".mov".toList, ".wmv".toList,
          ".flv".toList, ".webm".toList, ".m4v".toList, ".mpg".toList, ".mpeg".toList,
          ".3gp".toList, ".ogv".toList, ".ts".toList, ".m2ts".toList]) ∧
    (KeepsPathMarks lower → ∀ p q,
      strings.ToLower lower p = strings.ToLower lower q →
        isVideoFile lower p = isVideoFile lower q) ∧
    (∀ dir seg, (∀ c ∈ seg, c ≠ '.' ∧ c ≠ '/') → (dir = [] ∨ ∃ d, dir = d ++ ['/']) →
      isVideoFile lower (dir ++ seg) = false) := by
  have hiff : ∀ path, isVideoFile lower path = true ↔
      strings.ToLower lower (filepath.Ext path) ∈ videoExts := by
    intro path
    simp only [isVideoFile, List.any_eq_true, decide_eq_true_eq]
    constructor
    · rintro ⟨e, he, heq⟩
      rw [heq]
      exact he
    · intro h
      exact ⟨_, h, rfl⟩
  refine ⟨hiff, ?_, ?_⟩
  · intro hk p q hpq
    have hext : strings.ToLower lower (filepath.Ext p)
        = strings.ToLower lower (filepath.Ext q) := by
      unfold strings.ToLower at hpq ⊢
      rw [← filepath.Ext_map lower hk p, ← filepath.Ext_map lower hk q, hpq]
    unfold isVideoFile
    simp only [hext]
  · intro dir seg hseg hdir
    cases hv : isVideoFile lower (dir ++ seg) with
    | false => rfl
    | true =>
      have hmem := (hiff _).mp hv
      rw [filepath.Ext_no_dot dir seg hseg hdir] at hmem
      have hnot : ([] : List Char) ∉ videoExts := by decide
      exact absurd hmem hnot

/-- With the ASCII case table: `Dir/Movie.MKV` and `dir/movie.mkv` are both
videos, and `Season.1/README` is not. -/
theorem isVideoFile_case_insensitive_witness :
    isVideoFile Char.toLower "Dir/Movie.MKV".toList
      = isVideoFile Char.toLower "dir/movie.mkv".toList ∧
    isVideoFile Char.toLower "Dir/Movie.MKV".toList = true ∧
    isVideoFile Char.toLower ("Season.1/".toList ++ "README".toList) = false :=
  ⟨(isVideoFile_case_insensitive Char.toLower).2.1 keepsPathMarks_toLower
      "Dir/Movie.MKV".toList "dir/movie.mkv".toList (by decide),
    by decide,
    (isVideoFile_case_insensitive Char.toLower).2.2 "Season.1/".toList "README".toList
      (by decide) (Or.inr ⟨"Season.1".toList, by decide⟩)⟩

end TorrServer
